import Mathlib

/-!
Streaming-response consumer of the DeepSeek console client (`main.go`).

A shallow embedding of `handleStreamInput` and of the library routines it
calls, followed by theorems about the text the function returns.

Conventions of the embedding.

* A Go `string` is a sequence of bytes: `GoString := List Byte`.
* `resp.Body` is an `io.Reader`: the list of the chunks that successive `Read`
  calls have available, followed by `io.EOF` (returned by a read of its own).
  A chunk longer than the free space of the scanner buffer is delivered in
  several reads. Transport failures (a read error other than `io.EOF`) are not
  part of the model.
* `bufio.Scanner` with the default split function `ScanLines` is embedded from
  the Go standard library (`bufio/scan.go`), buffer growth, the
  `MaxScanTokenSize` limit and the limit on empty reads included.
* `strings.TrimSpace` removes the leading and the trailing runes for which
  `unicode.IsSpace` holds; on bytes these are the UTF-8 encodings listed in
  `strings.spaceEncodings`.
* `json.Unmarshal` is a parameter `unmarshal` of the embedding of
  `handleStreamInput`; every universally quantified theorem holds for every
  decoder. `json.Unmarshal` below is a reference model of `encoding/json` for
  the type `streamResponse`, used where a statement is evaluated at concrete
  bytes.
* A run-time panic (`sr.Choices[0]` on an empty slice) is the error of an
  `Except` result.
* Loops carry an iteration bound computed from their input; the bounds are
  shown to be adequate (`bufio.Scan_fuel_adequate`,
  `handleStreamInput_fuel_adequate`).
* Logging and console output (`log.Println`, `fmt.Print`) and
  `resp.Body.Close()` do not influence the returned text and are not embedded.
-/

/-- A byte of a Go string or byte slice. -/
abbrev Byte := UInt8

/-- A Go `string`: an immutable sequence of bytes. -/
abbrev GoString := List Byte

namespace utf8

/-- `utf8.RuneError`, the replacement character U+FFFD. -/
def RuneError : Nat := 0xFFFD

/-- `utf8.EncodeRune` / `utf8.AppendRune`: the UTF-8 encoding of a rune;
surrogates and out-of-range values are encoded as `RuneError`. -/
def EncodeRune (r : Nat) : List Byte :=
  if r < 0x80 then [UInt8.ofNat r]
  else if r < 0x800 then [UInt8.ofNat (0xC0 + r / 64), UInt8.ofNat (0x80 + r % 64)]
  else if (0xD800 ≤ r ∧ r ≤ 0xDFFF) ∨ 0x10FFFF < r then [0xEF, 0xBF, 0xBD]
  else if r < 0x10000 then
    [UInt8.ofNat (0xE0 + r / 4096), UInt8.ofNat (0x80 + r / 64 % 64), UInt8.ofNat (0x80 + r % 64)]
  else
    [UInt8.ofNat (0xF0 + r / 262144), UInt8.ofNat (0x80 + r / 4096 % 64),
     UInt8.ofNat (0x80 + r / 64 % 64), UInt8.ofNat (0x80 + r % 64)]

end utf8

/-- The bytes of a string literal of the Go source (its UTF-8 encoding). -/
def goString (s : String) : GoString :=
  (s.toList.map fun c => utf8.EncodeRune c.toNat).flatten

namespace strings

/-- `strings.HasPrefix(s, prefix)`. -/
def HasPrefix : GoString → GoString → Bool
  | _, [] => true
  | [], _ :: _ => false
  | c :: s, p :: ps => c == p && HasPrefix s ps

/-- `strings.Contains(s, substr)`: `substr` occurs in `s` at some offset. -/
def Contains : GoString → GoString → Bool
  | [], substr => HasPrefix [] substr
  | c :: s, substr => HasPrefix (c :: s) substr || Contains s substr

end strings

namespace bufio

/-- `bufio.MaxScanTokenSize`: the largest buffer a default `Scanner` allocates. -/
def MaxScanTokenSize : Nat := 64 * 1024

/-- `startBufSize`: the size of the first buffer allocation. -/
def startBufSize : Nat := 4096

/-- `maxConsecutiveEmptyReads`. -/
def maxConsecutiveEmptyReads : Nat := 100

/-- The errors a `Scanner` over `resp.Body` records. -/
inductive Error where
  | EOF
  | ErrTooLong
  | ErrNoProgress
  deriving DecidableEq

/-- The `io.Reader` under the scanner: the chunks still to be delivered. A
`Read` into a slice of `n` free bytes returns the next chunk, or its first `n`
bytes when it is longer (the remainder stays for the next `Read`); after the
last chunk a `Read` returns `0, io.EOF`. -/
abbrev Reader := List (List Byte)

/-- The state of a `bufio.Scanner`: `bufLen` is `len(s.buf)`, `start` is
`s.start`, `held` is the slice `s.buf[s.start:s.end]` (so `s.end` is
`start + held.length`), `err` is `s.err`. -/
structure Scanner where
  r : Reader
  bufLen : Nat
  start : Nat
  held : List Byte
  err : Option Error

/-- `bufio.NewScanner(r)`: no buffer is allocated before the first `Scan`. -/
def NewScanner (r : Reader) : Scanner :=
  { r := r, bufLen := 0, start := 0, held := [], err := none }

/-- `dropCR`: drops one terminal carriage return from the data. -/
def dropCR (data : List Byte) : List Byte :=
  if data.getLast? = some 13 then data.dropLast else data

/-- `bytes.IndexByte(data, c)`: the index of the first `c`, if any. -/
def IndexByte : List Byte → Byte → Option Nat
  | [], _ => none
  | b :: bs, c => if b = c then some 0 else (IndexByte bs c).map (· + 1)

/-- `bufio.ScanLines`: the advance and the token (`none` for a nil token). -/
def ScanLines (data : List Byte) (atEOF : Bool) : Nat × Option (List Byte) :=
  if atEOF && data.isEmpty then (0, none)
  else
    match IndexByte data 10 with
    | some i => (i + 1, some (dropCR (data.take i)))
    | none => if atEOF then (data.length, some (dropCR data)) else (0, none)

/-- The read loop at the end of an iteration of `Scan`: it reads into the
`space` free bytes `s.buf[s.end:len(s.buf)]` until a read returns data or an
error, giving up with `io.ErrNoProgress` after more than
`maxConsecutiveEmptyReads` empty reads. Returns the bytes read, the error to
record, and the reader afterwards. -/
def readLoop (space : Nat) : Nat → Reader → List Byte × Option Error × Reader
  | _, [] => ([], some Error.EOF, [])
  | loop, [] :: cs =>
    if loop + 1 > maxConsecutiveEmptyReads then ([], some Error.ErrNoProgress, cs)
    else readLoop space (loop + 1) cs
  | _, (b :: c) :: cs =>
    if space = 0 then ([], some Error.ErrNoProgress, (b :: c) :: cs)
    else if (b :: c).length ≤ space then (b :: c, none, cs)
    else ((b :: c).take space, none, (b :: c).drop space :: cs)

/-- The end of an iteration of `Scan` (reached with `s.err == nil`): read more
data behind the held bytes. -/
def Scanner.fill (s : Scanner) : Scanner :=
  match readLoop (s.bufLen - (s.start + s.held.length)) 0 s.r with
  | (p, err, r) => { s with r := r, held := s.held ++ p, err := err }

/-- The call of the split function at the top of an iteration of `Scan`, made
when the scanner holds data or has recorded an error: the advance and the
token. -/
def Scanner.split (s : Scanner) : Nat × Option (List Byte) :=
  if s.held ≠ [] ∨ s.err ≠ none then ScanLines s.held (s.err != none) else (0, none)

/-- `(*Scanner).advance(n)`: consumes `n` held bytes. (`ScanLines` never
advances beyond the held data, so the error branches are not reachable.) -/
def Scanner.advance (s : Scanner) (n : Nat) : Scanner :=
  { s with start := s.start + n, held := s.held.drop n }

/-- Shifts the data to the beginning of the buffer if there is lots of empty
space or space is needed. -/
def Scanner.shift (s : Scanner) : Scanner :=
  if 0 < s.start ∧ (s.start + s.held.length = s.bufLen ∨ s.bufLen / 2 < s.start)
  then { s with start := 0 } else s

/-- Resizes the full buffer: twice the size (`startBufSize` at first), at most
`MaxScanTokenSize`. -/
def Scanner.grow (s : Scanner) : Scanner :=
  { s with
    bufLen := min (if s.bufLen * 2 = 0 then startBufSize else s.bufLen * 2) MaxScanTokenSize,
    start := 0 }

/-- `(*Scanner).Scan`: `fuel` bounds the iterations of its `for` loop. Returns
the token (`none` when `Scan` returns false) and the scanner afterwards.
With `ScanLines` the split function returns no error, so that branch of `Scan`
is not reachable and is left out. -/
def Scanner.Scan : Nat → Scanner → Option (List Byte) × Scanner
  | 0, s => (none, s)
  | fuel + 1, s =>
    -- see if we can get a token with what we already have
    match s.split with
    | (adv, some token) => (some token, s.advance adv)
    | (adv, none) =>
      -- we cannot generate a token with what we are holding
      if (s.advance adv).err ≠ none then (none, { s.advance adv with start := 0, held := [] })
      else if (s.advance adv).shift.start + (s.advance adv).shift.held.length
          = (s.advance adv).shift.bufLen then
        -- the buffer is full
        if MaxScanTokenSize ≤ (s.advance adv).shift.bufLen then
          (none, { (s.advance adv).shift with err := some Error.ErrTooLong })
        else Scanner.Scan fuel (s.advance adv).shift.grow.fill
      else Scanner.Scan fuel (s.advance adv).shift.fill

/-- Iterations of the `for` loop of `Scan` that always suffice: every
iteration that does not return consumes a chunk or a byte of the reader, or
records an error. -/
def Scanner.fuel (s : Scanner) : Nat :=
  s.r.flatten.length + s.r.length + 2

/-- The tokens of all successful `Scan` calls, in order (at most `n`). -/
def Scanner.tokens : Nat → Scanner → List GoString
  | 0, _ => []
  | n + 1, s =>
    match s.Scan s.fuel with
    | (some token, s1) => token :: Scanner.tokens n s1
    | (none, _) => []

/-- The lines `scanner.Text()` returns over the successive `scanner.Scan()`
calls on `bufio.NewScanner(body)`, until `Scan` returns false. -/
def lines (body : Reader) : List GoString :=
  Scanner.tokens (body.flatten.length + 1) (NewScanner body)

end bufio


namespace strings

/-- The UTF-8 encodings of the runes for which `unicode.IsSpace` holds: the
ASCII characters tab, line feed, vertical tab, form feed, carriage return and
space, then U+0085, U+00A0, U+1680, U+2000 to U+200A, U+2028, U+2029, U+202F,
U+205F and U+3000. -/
def spaceEncodings : List (List Byte) :=
  [[0x09], [0x0A], [0x0B], [0x0C], [0x0D], [0x20], [0xC2, 0x85], [0xC2, 0xA0],
   [0xE1, 0x9A, 0x80], [0xE2, 0x80, 0x80], [0xE2, 0x80, 0x81], [0xE2, 0x80, 0x82],
   [0xE2, 0x80, 0x83], [0xE2, 0x80, 0x84], [0xE2, 0x80, 0x85], [0xE2, 0x80, 0x86],
   [0xE2, 0x80, 0x87], [0xE2, 0x80, 0x88], [0xE2, 0x80, 0x89], [0xE2, 0x80, 0x8A],
   [0xE2, 0x80, 0xA8], [0xE2, 0x80, 0xA9], [0xE2, 0x80, 0xAF], [0xE2, 0x81, 0x9F],
   [0xE3, 0x80, 0x80]]

/-- The width of the white-space rune `s` starts with (`utf8.DecodeRuneInString`
followed by `unicode.IsSpace`), or 0 when it starts with none. -/
def leadingSpace (s : GoString) : Nat :=
  match spaceEncodings.find? (fun e => HasPrefix s e) with
  | some e => e.length
  | none => 0

/-- The width of the white-space rune `s` ends with
(`utf8.DecodeLastRuneInString` followed by `unicode.IsSpace`), or 0. -/
def trailingSpace (s : GoString) : Nat :=
  match spaceEncodings.find? (fun e => HasPrefix s.reverse e.reverse) with
  | some e => e.length
  | none => 0

/-- `strings.TrimLeftFunc(s, unicode.IsSpace)`, at most `n` runes. -/
def trimLeftSpace : Nat → GoString → GoString
  | 0, s => s
  | n + 1, s => if leadingSpace s = 0 then s else trimLeftSpace n (s.drop (leadingSpace s))

/-- `strings.TrimRightFunc(s, unicode.IsSpace)`, at most `n` runes. -/
def trimRightSpace : Nat → GoString → GoString
  | 0, s => s
  | n + 1, s =>
    if trailingSpace s = 0 then s
    else trimRightSpace n (s.take (s.length - trailingSpace s))

/-- `strings.TrimSpace(s)`: `s` without its leading and trailing white space, as
defined by Unicode. -/
def TrimSpace (s : GoString) : GoString :=
  trimRightSpace s.length (trimLeftSpace s.length s)

end strings

namespace json

/-- A JSON text as the decoder reads it; also the value an `interface{}` field
receives, `null` standing for the nil interface. Numbers keep their literal and
strings are unquoted. -/
inductive Value where
  | null
  | bool (b : Bool)
  | number (literal : GoString)
  | string (s : GoString)
  | array (elems : List Value)
  | object (members : List (GoString × Value))

/-- Whether an `interface{}` holding the value is nil. -/
def Value.isNil : Value → Bool
  | Value.null => true
  | _ => false

/-- The error `json.Unmarshal` returns. -/
inductive Error where
  | SyntaxError
  | UnmarshalTypeError
  deriving DecidableEq

/-- `maxNestingDepth` of the scanner. -/
def maxNestingDepth : Nat := 10000

/-- `isSpace` of the scanner. -/
def isSpace (c : Byte) : Bool :=
  c == 0x20 || c == 0x09 || c == 0x0D || c == 0x0A

/-- Skips insignificant white space. -/
def skipSpace : List Byte → List Byte
  | [] => []
  | c :: s => if isSpace c then skipSpace s else c :: s

/-- Whether the byte is a decimal digit. -/
def isDigit (c : Byte) : Bool := 0x30 ≤ c && c ≤ 0x39

/-- The value of a hexadecimal digit (`getu4`). -/
def hexVal (c : Byte) : Option Nat :=
  if 0x30 ≤ c && c ≤ 0x39 then some (c.toNat - 0x30)
  else if 0x61 ≤ c && c ≤ 0x66 then some (c.toNat - 0x61 + 10)
  else if 0x41 ≤ c && c ≤ 0x46 then some (c.toNat - 0x41 + 10)
  else none

/-- `getu4`: the value of the escape `\uXXXX` the data starts with, and the
data behind it. -/
def getu4 : List Byte → Option (Nat × List Byte)
  | 0x5C :: 0x75 :: a :: b :: c :: d :: rest =>
    match hexVal a, hexVal b, hexVal c, hexVal d with
    | some x, some y, some z, some w => some (((x * 16 + y) * 16 + z) * 16 + w, rest)
    | _, _, _, _ => none
  | _ => none

/-- Whether the byte continues a multi-byte UTF-8 sequence. -/
def isCont (c : Byte) : Bool := 0x80 ≤ c && c ≤ 0xBF

/-- The width of the well-formed UTF-8 sequence the data starts with
(`utf8.DecodeRune`), or 0 when it starts with an invalid byte. -/
def runeLen : List Byte → Nat
  | [] => 0
  | b0 :: s =>
    if b0 < 0x80 then 1
    else if 0xC2 ≤ b0 && b0 ≤ 0xDF then
      match s with
      | b1 :: _ => if isCont b1 then 2 else 0
      | _ => 0
    else if 0xE0 ≤ b0 && b0 ≤ 0xEF then
      match s with
      | b1 :: b2 :: _ =>
        let lo : Byte := if b0 = 0xE0 then 0xA0 else 0x80
        let hi : Byte := if b0 = 0xED then 0x9F else 0xBF
        if lo ≤ b1 && b1 ≤ hi && isCont b2 then 3 else 0
      | _ => 0
    else if 0xF0 ≤ b0 && b0 ≤ 0xF4 then
      match s with
      | b1 :: b2 :: b3 :: _ =>
        let lo : Byte := if b0 = 0xF0 then 0x90 else 0x80
        let hi : Byte := if b0 = 0xF4 then 0x8F else 0xBF
        if lo ≤ b1 && b1 ≤ hi && isCont b2 && isCont b3 then 4 else 0
      | _ => 0
    else 0

/-- The body of a string literal behind its opening quote: the scanner's
grammar (no control characters, the escapes of JSON) and `unquote` in one
pass. Invalid UTF-8 and unpaired surrogate escapes become U+FFFD. Returns the
unquoted string and the data behind the closing quote. -/
def parseString : Nat → List Byte → Option (GoString × List Byte)
  | 0, _ => none
  | _ + 1, [] => none
  | fuel + 1, c :: s =>
    if c = 0x22 then some ([], s)
    else if c < 0x20 then none
    else if c = 0x5C then
      match s with
      | [] => none
      | e :: s1 =>
        let simple (b : Byte) : Option (GoString × List Byte) :=
          (parseString fuel s1).map fun p => (b :: p.1, p.2)
        if e = 0x22 then simple 0x22
        else if e = 0x5C then simple 0x5C
        else if e = 0x2F then simple 0x2F
        else if e = 0x62 then simple 0x08
        else if e = 0x66 then simple 0x0C
        else if e = 0x6E then simple 0x0A
        else if e = 0x72 then simple 0x0D
        else if e = 0x74 then simple 0x09
        else if e = 0x75 then
          match getu4 (c :: s) with
          | none => none
          | some (rr, s6) =>
            if 0xD800 ≤ rr ∧ rr ≤ 0xDFFF then
              match getu4 s6 with
              | some (rr1, s12) =>
                if rr < 0xDC00 ∧ 0xDC00 ≤ rr1 ∧ rr1 ≤ 0xDFFF then
                  (parseString fuel s12).map fun p =>
                    (utf8.EncodeRune (0x10000 + (rr - 0xD800) * 1024 + (rr1 - 0xDC00)) ++ p.1, p.2)
                else (parseString fuel s6).map fun p => (utf8.EncodeRune utf8.RuneError ++ p.1, p.2)
              | none => (parseString fuel s6).map fun p => (utf8.EncodeRune utf8.RuneError ++ p.1, p.2)
            else (parseString fuel s6).map fun p => (utf8.EncodeRune rr ++ p.1, p.2)
        else none
    else if c < 0x80 then (parseString fuel s).map fun p => (c :: p.1, p.2)
    else
      let n := runeLen (c :: s)
      if n = 0 then (parseString fuel s).map fun p => (utf8.EncodeRune utf8.RuneError ++ p.1, p.2)
      else (parseString fuel ((c :: s).drop n)).map fun p => ((c :: s).take n ++ p.1, p.2)

/-- The digits the data starts with, and the data behind them. -/
def spanDigits : List Byte → List Byte × List Byte
  | [] => ([], [])
  | c :: s => if isDigit c then ((spanDigits s).1.cons c, (spanDigits s).2) else ([], c :: s)

/-- A number literal of the JSON grammar at the start of the data: an optional
minus sign, an integer part without superfluous leading zero, an optional
fraction and an optional exponent. Returns the literal and the data behind. -/
def parseNumber (s : List Byte) : Option (GoString × List Byte) :=
  let sign : List Byte × List Byte :=
    match s with
    | 0x2D :: t => ([0x2D], t)
    | _ => ([], s)
  let int : Option (List Byte × List Byte) :=
    match sign.2 with
    | [] => none
    | c :: t =>
      if c = 0x30 then some ([c], t)
      else if isDigit c then some ((spanDigits (c :: t)).1, (spanDigits (c :: t)).2)
      else none
  match int with
  | none => none
  | some (i, t) =>
    let frac : Option (List Byte × List Byte) :=
      match t with
      | 0x2E :: u =>
        if (spanDigits u).1 = [] then none else some (0x2E :: (spanDigits u).1, (spanDigits u).2)
      | _ => some ([], t)
    match frac with
    | none => none
    | some (f, u) =>
      let exp : Option (List Byte × List Byte) :=
        match u with
        | [] => some ([], u)
        | e :: v =>
          if e = 0x65 ∨ e = 0x45 then
            let sg : List Byte × List Byte :=
              match v with
              | [] => ([], v)
              | g :: w => if g = 0x2B ∨ g = 0x2D then ([g], w) else ([], v)
            if (spanDigits sg.2).1 = [] then none
            else some (e :: sg.1 ++ (spanDigits sg.2).1, (spanDigits sg.2).2)
          else some ([], u)
      match exp with
      | none => none
      | some (x, w) => some (sign.1 ++ i ++ f ++ x, w)

end json

namespace json

mutual

/-- A JSON value at the start of the data (white space already skipped), inside
`depth` open arrays and objects. Returns the value and the data behind it. -/
def parseValue : Nat → Nat → List Byte → Option (Value × List Byte)
  | 0, _, _ => none
  | _ + 1, _, [] => none
  | fuel + 1, depth, c :: t =>
    if c = 0x7B then
      if maxNestingDepth ≤ depth then none
      else
        match skipSpace t with
        | [] => none
        | d :: u =>
          if d = 0x7D then some (Value.object [], u)
          else (parseMembers fuel (depth + 1) (d :: u)).map fun p => (Value.object p.1, p.2)
    else if c = 0x5B then
      if maxNestingDepth ≤ depth then none
      else
        match skipSpace t with
        | [] => none
        | d :: u =>
          if d = 0x5D then some (Value.array [], u)
          else (parseElems fuel (depth + 1) (d :: u)).map fun p => (Value.array p.1, p.2)
    else if c = 0x22 then (parseString (t.length + 1) t).map fun p => (Value.string p.1, p.2)
    else if strings.HasPrefix (c :: t) (goString "true") then some (Value.bool true, t.drop 3)
    else if strings.HasPrefix (c :: t) (goString "false") then some (Value.bool false, t.drop 4)
    else if strings.HasPrefix (c :: t) (goString "null") then some (Value.null, t.drop 3)
    else (parseNumber (c :: t)).map fun p => (Value.number p.1, p.2)

/-- The elements of an array from the start of an element up to and including
the closing bracket. -/
def parseElems : Nat → Nat → List Byte → Option (List Value × List Byte)
  | 0, _, _ => none
  | fuel + 1, depth, s =>
    match parseValue fuel depth s with
    | none => none
    | some (v, t) =>
      match skipSpace t with
      | [] => none
      | d :: u =>
        if d = 0x2C then (parseElems fuel depth (skipSpace u)).map fun p => (v :: p.1, p.2)
        else if d = 0x5D then some ([v], u)
        else none

/-- The members of an object from the start of a key up to and including the
closing brace. -/
def parseMembers : Nat → Nat → List Byte → Option (List (GoString × Value) × List Byte)
  | 0, _, _ => none
  | _ + 1, _, [] => none
  | fuel + 1, depth, q :: s =>
    if q = 0x22 then
      match parseString (s.length + 1) s with
      | none => none
      | some (key, t) =>
        match skipSpace t with
        | [] => none
        | colon :: u =>
          if colon = 0x3A then
            match parseValue fuel depth (skipSpace u) with
            | none => none
            | some (v, w) =>
              match skipSpace w with
              | [] => none
              | d :: x =>
                if d = 0x2C then
                  (parseMembers fuel depth (skipSpace x)).map fun p => ((key, v) :: p.1, p.2)
                else if d = 0x7D then some ([(key, v)], x)
                else none
          else none
    else none

end

/-- The scanner pass of `Unmarshal` (`checkValid`) together with the reading of
the value: `none` for data that is not one JSON text surrounded by white space
only. -/
def parse (data : GoString) : Option Value :=
  match parseValue (2 * data.length + 2) 0 (skipSpace data) with
  | none => none
  | some (v, rest) => if skipSpace rest = [] then some v else none

end json

/-- The struct `Delta` of a choice of `streamResponse`. -/
structure Delta where
  Role : GoString
  Content : GoString
  ToolCalls : json.Value

/-- An element of `streamResponse.Choices`. `FinishReason` is an `interface{}`:
`json.Value.null` is nil. -/
structure Choice where
  Index : Int
  Delta : Delta
  FinishReason : json.Value

/-- The struct `streamResponse` of the source. -/
structure streamResponse where
  ID : GoString
  Object : GoString
  Created : Int
  Model : GoString
  Choices : List Choice
  Usage : json.Value

/-- The zero value of `Delta`. -/
def Delta.zero : Delta := { Role := [], Content := [], ToolCalls := json.Value.null }

/-- The zero value of an element of `Choices`. -/
def Choice.zero : Choice := { Index := 0, Delta := Delta.zero, FinishReason := json.Value.null }

/-- The zero value `var sr streamResponse`. -/
def streamResponse.zero : streamResponse :=
  { ID := [], Object := [], Created := 0, Model := [], Choices := [], Usage := json.Value.null }

namespace json

/-- The key folded for the case-insensitive field match (`foldName`): ASCII
letters in upper case, and the two non-ASCII runes whose fold class holds an
ASCII letter, U+017F (long s) and U+212A (Kelvin sign), as `S` and `K`. A key
matches one of the (ASCII) field names of `streamResponse` under `foldName`
exactly when it does under this function. -/
def foldName : Nat → GoString → GoString
  | 0, _ => []
  | _ + 1, [] => []
  | fuel + 1, c :: s =>
    if 0x61 ≤ c && c ≤ 0x7A then (c - 0x20) :: foldName fuel s
    else if strings.HasPrefix (c :: s) [0xC5, 0xBF] then 0x53 :: foldName fuel (s.drop 1)
    else if strings.HasPrefix (c :: s) [0xE2, 0x84, 0xAA] then 0x4B :: foldName fuel (s.drop 2)
    else c :: foldName fuel s

/-- Whether the object key selects the struct field with the given JSON name:
an exact match, or else a case-insensitive one. -/
def isField (key : GoString) (name : String) : Bool :=
  key == goString name ||
    foldName key.length key == foldName (goString name).length (goString name)

/-- The value of a run of decimal digits. -/
def digitsVal : List Byte → Nat → Nat
  | [], acc => acc
  | c :: s, acc => digitsVal s (acc * 10 + (c.toNat - 0x30))

/-- The number literal as a Go `int` (`strconv.ParseInt(literal, 10, 64)`):
`none` when it has a fraction or an exponent or does not fit 64 bits. -/
def parseInt (literal : GoString) : Option Int :=
  match literal with
  | 0x2D :: ds =>
    if ds ≠ [] ∧ ds.all isDigit ∧ digitsVal ds 0 ≤ 2 ^ 63 then some (- (digitsVal ds 0 : Int))
    else none
  | ds =>
    if ds ≠ [] ∧ ds.all isDigit ∧ digitsVal ds 0 < 2 ^ 63 then some (digitsVal ds 0 : Int)
    else none

/-- The decimal mantissa and exponent of a number literal of the JSON grammar:
its absolute value is `m * 10 ^ e`. -/
def decimalOf (literal : GoString) : Nat × Int :=
  let unsigned : List Byte :=
    match literal with
    | 0x2D :: t => t
    | t => t
  let frac : List Byte × List Byte :=
    match (spanDigits unsigned).2 with
    | 0x2E :: u => spanDigits u
    | u => ([], u)
  let exp : Int :=
    match frac.2 with
    | [] => 0
    | _ :: v =>
      match v with
      | 0x2D :: w => - (digitsVal w 0 : Int)
      | 0x2B :: w => (digitsVal w 0 : Int)
      | w => (digitsVal w 0 : Int)
  (digitsVal ((spanDigits unsigned).1 ++ frac.1) 0, exp - frac.1.length)

/-- Whether `strconv.ParseFloat(literal, 64)` reports a range error: the number
rounds to an infinity, that is, its absolute value is at least
`2 ^ 1024 - 2 ^ 970`, half a unit in the last place above the largest `float64`.
(Exponents beyond 400 and numbers below 1 are decided without computing the
power.) -/
def floatOverflows (literal : GoString) : Bool :=
  let m := (decimalOf literal).1
  let e := (decimalOf literal).2
  if m = 0 then false
  else if 400 < e then true
  else if 0 ≤ e then decide (2 ^ 1024 - 2 ^ 970 ≤ m * 10 ^ e.toNat)
  else if literal.length < (-e).toNat then false
  else decide ((2 ^ 1024 - 2 ^ 970) * 10 ^ (-e).toNat ≤ m)

mutual

/-- Whether the value can be stored into an `interface{}`: every number in it
converts to a `float64` (`convertNumber`); a number that overflows saves an
`UnmarshalTypeError`. -/
def Value.fits : Value → Bool
  | Value.number literal => !floatOverflows literal
  | Value.array elems => fitsList elems
  | Value.object members => fitsMembers members
  | _ => true

/-- Whether every element of an array can be stored into an `interface{}`. -/
def fitsList : List Value → Bool
  | [] => true
  | v :: vs => v.fits && fitsList vs

/-- Whether every member of an object can be stored into an `interface{}`. -/
def fitsMembers : List (GoString × Value) → Bool
  | [] => true
  | (_, v) :: ms => v.fits && fitsMembers ms

end

/-- A JSON value stored into a `string` field: the new field value, and whether
an `UnmarshalTypeError` is saved. `null` leaves the field as it is. -/
def storeString (old : GoString) : Value → GoString × Bool
  | Value.string s => (s, false)
  | Value.null => (old, false)
  | _ => (old, true)

/-- A JSON value stored into an `int` field. -/
def storeInt (old : Int) : Value → Int × Bool
  | Value.number literal =>
    match parseInt literal with
    | some n => (n, false)
    | none => (old, true)
  | Value.null => (old, false)
  | _ => (old, true)

/-- One member of a JSON object stored into a `Delta`. Unknown keys are
skipped. -/
def storeDeltaField (d : Delta × Bool) (m : GoString × Value) : Delta × Bool :=
  if isField m.1 "role" then
    ({ d.1 with Role := (storeString d.1.Role m.2).1 }, d.2 || (storeString d.1.Role m.2).2)
  else if isField m.1 "content" then
    ({ d.1 with Content := (storeString d.1.Content m.2).1 },
      d.2 || (storeString d.1.Content m.2).2)
  else if isField m.1 "tool_calls" then ({ d.1 with ToolCalls := m.2 }, d.2 || !m.2.fits)
  else d

/-- A JSON value stored into a `Delta`. -/
def storeDelta (old : Delta) : Value → Delta × Bool
  | Value.object members => members.foldl storeDeltaField (old, false)
  | Value.null => (old, false)
  | _ => (old, true)

/-- One member of a JSON object stored into an element of `Choices`. -/
def storeChoiceField (c : Choice × Bool) (m : GoString × Value) : Choice × Bool :=
  if isField m.1 "index" then
    ({ c.1 with Index := (storeInt c.1.Index m.2).1 }, c.2 || (storeInt c.1.Index m.2).2)
  else if isField m.1 "delta" then
    ({ c.1 with Delta := (storeDelta c.1.Delta m.2).1 }, c.2 || (storeDelta c.1.Delta m.2).2)
  else if isField m.1 "finish_reason" then
    ({ c.1 with FinishReason := m.2 }, c.2 || !m.2.fits)
  else c

/-- A JSON value stored into an element of `Choices`. -/
def storeChoice (old : Choice) : Value → Choice × Bool
  | Value.object members => members.foldl storeChoiceField (old, false)
  | Value.null => (old, false)
  | _ => (old, true)

/-- The elements of a JSON array stored into the backing array of a slice:
element `i` is decoded into the element the array already holds at `i` (it is
not zeroed first), or into a zero element when the array has to grow. -/
def storeElems : List Value → List Choice → List (Choice × Bool)
  | [], _ => []
  | v :: vs, [] => storeChoice Choice.zero v :: storeElems vs []
  | v :: vs, c :: cs => storeChoice c v :: storeElems vs cs

/-- A JSON value stored into the slice `Choices`. `old` is the slice and `stale`
the elements its backing array holds behind its length (left there when an
earlier array for the same key was shorter). An array sets the length to the
number of its elements, an empty one allocates a fresh empty slice, `null`
makes the slice nil. Returns the slice, the elements behind it, and whether an
`UnmarshalTypeError` is saved. -/
def storeChoices (old stale : List Choice) : Value → List Choice × List Choice × Bool
  | Value.array [] => ([], [], false)
  | Value.array (e :: elems) =>
    ((storeElems (e :: elems) (old ++ stale)).map Prod.fst,
      (old ++ stale).drop (e :: elems).length,
      (storeElems (e :: elems) (old ++ stale)).any Prod.snd)
  | Value.null => ([], [], false)
  | _ => (old, stale, true)

/-- The state of the decoder while it fills `sr`: the struct, the elements
behind the length of `sr.Choices` in its backing array, and whether an
`UnmarshalTypeError` has been saved. -/
structure Decoding where
  sr : streamResponse
  stale : List Choice
  err : Bool

/-- One member of the top-level JSON object stored into `streamResponse`. -/
def storeField (r : Decoding) (m : GoString × Value) : Decoding :=
  if isField m.1 "id" then
    { r with sr := { r.sr with ID := (storeString r.sr.ID m.2).1 },
             err := r.err || (storeString r.sr.ID m.2).2 }
  else if isField m.1 "object" then
    { r with sr := { r.sr with Object := (storeString r.sr.Object m.2).1 },
             err := r.err || (storeString r.sr.Object m.2).2 }
  else if isField m.1 "created" then
    { r with sr := { r.sr with Created := (storeInt r.sr.Created m.2).1 },
             err := r.err || (storeInt r.sr.Created m.2).2 }
  else if isField m.1 "model" then
    { r with sr := { r.sr with Model := (storeString r.sr.Model m.2).1 },
             err := r.err || (storeString r.sr.Model m.2).2 }
  else if isField m.1 "choices" then
    { sr := { r.sr with Choices := (storeChoices r.sr.Choices r.stale m.2).1 },
      stale := (storeChoices r.sr.Choices r.stale m.2).2.1,
      err := r.err || (storeChoices r.sr.Choices r.stale m.2).2.2 }
  else if isField m.1 "usage" then
    { r with sr := { r.sr with Usage := m.2 }, err := r.err || !m.2.fits }
  else r

/-- A JSON value stored into `streamResponse`. -/
def storeResponse (old : streamResponse) : Value → Decoding
  | Value.object members => members.foldl storeField { sr := old, stale := [], err := false }
  | Value.null => { sr := old, stale := [], err := false }
  | _ => { sr := old, stale := [], err := true }

/-- Reference model of `json.Unmarshal([]byte(data), &sr)` for a zero `sr`:
a syntax error when the data is not valid JSON (nothing is decoded); otherwise
the data is decoded into the struct, and an `UnmarshalTypeError` is returned
when some JSON value did not fit the Go type of its field. -/
def Unmarshal (data : GoString) : Except Error streamResponse :=
  match parse data with
  | none => Except.error Error.SyntaxError
  | some v =>
    if (storeResponse streamResponse.zero v).err then Except.error Error.UnmarshalTypeError
    else Except.ok (storeResponse streamResponse.zero v).sr

end json

/-- The fields of `*http.Response` that `handleStreamInput` reads. -/
structure Response where
  StatusCode : Int
  Body : bufio.Reader

/-- `http.StatusOK`. -/
def StatusOK : Int := 200

/-- A run-time panic of the Go program. -/
inductive Panic where
  /-- Raised by `sr.Choices[0]` on an empty slice: index out of range [0] with length 0. -/
  | indexOutOfRange
  deriving DecidableEq

/-- How one iteration of the `for scanner.Scan()` loop ends: at the end of the
body or at a `continue` (`next`), at the `break` (`done`), both with the content
of `fullResponse`, or in a panic. -/
inductive Step where
  | next (fullResponse : GoString)
  | done (fullResponse : GoString)
  | panic
  deriving DecidableEq

/-- The expression `strings.TrimSpace(line[len("data:"):])` of the loop body. -/
def payload (line : GoString) : GoString :=
  strings.TrimSpace (line.drop (goString "data:").length)

/-- The body of the `for scanner.Scan()` loop of `handleStreamInput`, for the
line `scanner.Text()` returned. -/
def loopBody (unmarshal : GoString → Except json.Error streamResponse)
    (fullResponse : GoString) (line : GoString) : Step :=
  if !strings.HasPrefix line (goString "data:") then Step.next fullResponse
  else
    let data := payload line
    if data = [] then Step.next fullResponse
    else if strings.Contains line (goString "[DONE]") then Step.done fullResponse
    else
      match unmarshal data with
      | Except.error _ => Step.next fullResponse
      | Except.ok sr =>
        match sr.Choices with
        | [] => Step.panic
        | choice :: _ =>
          if !choice.FinishReason.isNil then Step.next fullResponse
          else Step.next (fullResponse ++ choice.Delta.Content)

/-- The `for scanner.Scan()` loop of `handleStreamInput`, at most `n`
iterations, from the scanner state `s` and the content of `fullResponse`. -/
def scanLoop (unmarshal : GoString → Except json.Error streamResponse) :
    Nat → bufio.Scanner → GoString → Except Panic GoString
  | 0, _, fullResponse => Except.ok fullResponse
  | n + 1, s, fullResponse =>
    match s.Scan s.fuel with
    | (none, _) => Except.ok fullResponse
    | (some line, s1) =>
      match loopBody unmarshal fullResponse line with
      | Step.next full => scanLoop unmarshal n s1 full
      | Step.done full => Except.ok full
      | Step.panic => Except.error Panic.indexOutOfRange

/-- `handleStreamInput(resp)`: the returned string, or the panic the call ends
in. A scan yields at least one byte of the body per token, so
`length + 1` iterations exhaust every body. -/
def handleStreamInput (unmarshal : GoString → Except json.Error streamResponse)
    (resp : Response) : Except Panic GoString :=
  if resp.StatusCode ≠ StatusOK then Except.ok []
  else scanLoop unmarshal (resp.Body.flatten.length + 1) (bufio.NewScanner resp.Body) []

/-- The loop of `handleStreamInput` over the lines the scanner returns. -/
def consume (unmarshal : GoString → Except json.Error streamResponse) :
    GoString → List GoString → Except Panic GoString
  | fullResponse, [] => Except.ok fullResponse
  | fullResponse, line :: rest =>
    match loopBody unmarshal fullResponse line with
    | Step.next full => consume unmarshal full rest
    | Step.done full => Except.ok full
    | Step.panic => Except.error Panic.indexOutOfRange


instance : DecidableEq (Except Panic GoString)
  | Except.ok a, Except.ok b =>
    if h : a = b then isTrue (by rw [h]) else isFalse (by intro h2; cases h2; exact h rfl)
  | Except.error a, Except.error b =>
    if h : a = b then isTrue (by rw [h]) else isFalse (by intro h2; cases h2; exact h rfl)
  | Except.ok _, Except.error _ => isFalse (by intro h; cases h)
  | Except.error _, Except.ok _ => isFalse (by intro h; cases h)


namespace bufio

/-- The first line of a byte stream as the scanner tokenises it, and the
stream behind it: the bytes before the first line feed, without a terminal
carriage return, when fewer than `MaxScanTokenSize` bytes precede the line
feed; for a stream without line feed, all of it when it is not empty and
shorter than `MaxScanTokenSize`. `none` where the scanner stops. -/
def nextLine (stream : List Byte) : Option (GoString × List Byte) :=
  match IndexByte stream 10 with
  | some i =>
    if i < MaxScanTokenSize then some (dropCR (stream.take i), stream.drop (i + 1)) else none
  | none =>
    if stream = [] then none
    else if stream.length < MaxScanTokenSize then some (dropCR stream, []) else none

/-- The lines of a byte stream (at most `n`), independent of any chunking. -/
def streamLines : Nat → List Byte → List GoString
  | 0, _ => []
  | n + 1, stream =>
    match nextLine stream with
    | some (token, rest) => token :: streamLines n rest
    | none => []

/-- The bytes the scanner has not yet returned: those it holds and those the
reader still has. -/
def Scanner.remaining (s : Scanner) : List Byte :=
  s.held ++ s.r.flatten

/-- The reader, after `run` empty reads in a row, never makes more than
`maxConsecutiveEmptyReads` empty reads (empty chunks) in a row. A reader all of
whose chunks are non-empty does so. -/
def progresses : Nat → Reader → Bool
  | _, [] => true
  | run, [] :: cs => decide (run + 1 ≤ maxConsecutiveEmptyReads) && progresses (run + 1) cs
  | _, (_ :: _) :: cs => progresses 0 cs

/-- The states of a scanner over a reader that progresses: the held bytes lie
inside the buffer, the buffer is no larger than `MaxScanTokenSize`, and the only
error recorded so far is the `io.EOF` of the exhausted reader, recorded while
the buffer had free space. -/
structure Scanner.Inv (s : Scanner) : Prop where
  fits : s.start + s.held.length ≤ s.bufLen
  small : s.bufLen ≤ MaxScanTokenSize
  chunks : progresses 0 s.r = true
  eof : s.err = none ∨ (s.err = some Error.EOF ∧ s.r = [] ∧ s.held.length < MaxScanTokenSize)

/-- Iterations of the loop of `Scan` needed from a state. -/
def Scanner.need (s : Scanner) : Nat :=
  s.r.flatten.length + s.r.length + (if s.err = none then 1 else 0) + 1

end bufio

namespace bufio

/-- The lines of a byte stream as its line feeds delimit them, whatever their
length: the runs of bytes between line feeds, and a non-empty run after the
last line feed. `cur` holds the bytes of the current line read so far. -/
def rawLines : List Byte → List Byte → List (List Byte)
  | [], cur => if cur = [] then [] else [cur]
  | b :: bs, cur => if b = 10 then cur :: rawLines bs [] else rawLines bs (cur ++ [b])

/-- Whether a line (without its line feed) is shorter than `MaxScanTokenSize`. -/
def shortLine (r : List Byte) : Bool :=
  decide (r.length < MaxScanTokenSize)

end bufio

/-- The text lines of a body: the lines its line feeds delimit, each without a
terminal carriage return. -/
def bodyLines (body : bufio.Reader) : List GoString :=
  (bufio.rawLines body.flatten []).map bufio.dropCR

/-- The line is a data line `data: <JSON event>` whose payload is not empty and
decodes to an event with at least one choice, the first of which has the delta
content `content` and a nil (null or absent) `finish_reason`. -/
def IsContentEvent (unmarshal : GoString → Except json.Error streamResponse)
    (line content : GoString) : Prop :=
  strings.HasPrefix line (goString "data:") = true ∧ payload line ≠ [] ∧
    ∃ sr choice rest, unmarshal (payload line) = Except.ok sr ∧ sr.Choices = choice :: rest ∧
      choice.FinishReason.isNil = true ∧ choice.Delta.Content = content

/-- The line is a data line whose payload decodes to an event with at least one
choice, the first of which has a present (non-nil) `finish_reason`. -/
def IsFinishEvent (unmarshal : GoString → Except json.Error streamResponse)
    (line : GoString) : Prop :=
  strings.HasPrefix line (goString "data:") = true ∧
    ∃ sr choice rest, unmarshal (payload line) = Except.ok sr ∧ sr.Choices = choice :: rest ∧
      choice.FinishReason.isNil = false

/-- The string is empty or consists of white-space runes only. -/
def IsBlank (s : GoString) : Prop :=
  ∃ ws : List (List Byte), (∀ w ∈ ws, w ∈ strings.spaceEncodings) ∧ s = ws.flatten

/-- The line is skipped by the framing rules alone: it does not begin with
`data:`, or its remainder after `data:` is empty or only white space. -/
def IsSkipLine (line : GoString) : Prop :=
  strings.HasPrefix line (goString "data:") = false ∨
    IsBlank (line.drop (goString "data:").length)

/-- The content a line contributes in the reference characterisation: the
`choices[0].delta.content` of a line that starts with `data:`, has a non-empty
trimmed payload, parses, and has a nil `choices[0].finish_reason`; nothing for
any other line. -/
def lineContent (unmarshal : GoString → Except json.Error streamResponse)
    (line : GoString) : Option GoString :=
  if strings.HasPrefix line (goString "data:") = true ∧ payload line ≠ [] then
    match unmarshal (payload line) with
    | Except.ok sr =>
      match sr.Choices with
      | choice :: _ => if choice.FinishReason.isNil then some choice.Delta.Content else none
      | [] => none
    | Except.error _ => none
  else none

/-- The reference text of a sequence of lines: the in-order concatenation of
the contents the lines contribute. -/
def referenceText (unmarshal : GoString → Except json.Error streamResponse)
    (lines : List GoString) : GoString :=
  (lines.filterMap (lineContent unmarshal)).flatten

/-! ### Concrete streams -/

/-- The data line
`data: {"choices":[{"index":0,"delta":{"content":"<content>"},"finish_reason":<finish>}]}`
for the given text of the content (as written between the quotes) and of the
finish reason (`null`, or a quoted string). -/
def eventLine (content finish : String) : GoString :=
  goString ("data: \x7b\"choices\":[\x7b\"index\":0,\"delta\":\x7b\"content\":\"" ++ content ++
    "\"\x7d,\"finish_reason\":" ++ finish ++ "\x7d]\x7d")

/-- The sentinel line `data: [DONE]`. -/
def doneLine : GoString := goString "data: [DONE]"

/-- A line of `MaxScanTokenSize` (65536) letters `x`. -/
def longLine : GoString := List.replicate bufio.MaxScanTokenSize 120

/-- A body that delivers the lines, each terminated by a line feed, in one
chunk. -/
def oneChunk (lines : List GoString) : bufio.Reader :=
  [(lines.map fun l => l ++ [10]).flatten]
/-! ## The loop over the scanned lines -/

theorem scanLoop_eq_consume (unmarshal : GoString → Except json.Error streamResponse)
    (n : Nat) (s : bufio.Scanner) (full : GoString) :
    scanLoop unmarshal n s full = consume unmarshal full (bufio.Scanner.tokens n s) := by
  induction n generalizing s full with
  | zero => rfl
  | succ n ih =>
    simp only [scanLoop, bufio.Scanner.tokens]
    rcases hs : s.Scan s.fuel with ⟨tok, s1⟩
    cases tok with
    | none => rfl
    | some line =>
      simp only [consume]
      cases loopBody unmarshal full line with
      | next f => exact ih s1 f
      | done f => rfl
      | panic => rfl

theorem handleStreamInput_eq_consume (unmarshal : GoString → Except json.Error streamResponse)
    (resp : Response) (h : resp.StatusCode = StatusOK) :
    handleStreamInput unmarshal resp = consume unmarshal [] (bufio.lines resp.Body) := by
  simp [handleStreamInput, h, scanLoop_eq_consume, bufio.lines]

/-! ## The scanner: its tokens depend on the byte stream only -/

namespace bufio

theorem IndexByte_lt {l : List Byte} {c : Byte} {i : Nat} (h : IndexByte l c = some i) :
    i < l.length := by
  induction l generalizing i with
  | nil => simp [IndexByte] at h
  | cons b bs ih =>
    simp only [IndexByte] at h
    split at h
    · simp at h; subst h; simp
    · cases hb : IndexByte bs c with
      | none => simp [hb] at h
      | some j =>
        simp [hb] at h
        subst h
        have := ih hb
        simp; omega

theorem IndexByte_append_some {l : List Byte} {c : Byte} {i : Nat} (m : List Byte)
    (h : IndexByte l c = some i) : IndexByte (l ++ m) c = some i := by
  induction l generalizing i with
  | nil => simp [IndexByte] at h
  | cons b bs ih =>
    simp only [IndexByte, List.cons_append] at h ⊢
    split
    · simpa [*] using h
    · rename_i hne
      simp only [hne, if_false] at h
      cases hb : IndexByte bs c with
      | none => simp [hb] at h
      | some j => simp [hb] at h; simp [ih hb, h]

theorem IndexByte_append_none {l : List Byte} {c : Byte} (m : List Byte)
    (h : IndexByte l c = none) :
    IndexByte (l ++ m) c = (IndexByte m c).map (· + l.length) := by
  induction l with
  | nil => simp
  | cons b bs ih =>
    simp only [IndexByte, List.cons_append] at h ⊢
    split
    · rename_i hb; simp [hb] at h
    · rename_i hne
      simp only [hne, if_false] at h
      cases hb : IndexByte bs c with
      | some j => simp [hb] at h
      | none =>
        simp only [List.append_eq]
        rw [ih hb]
        cases IndexByte m c <;> simp
        omega

end bufio

namespace bufio

theorem nextLine_nil : nextLine [] = none := by
  simp [nextLine, IndexByte]

theorem nextLine_of_held_some {held : List Byte} {i : Nat} (rest : List Byte)
    (h : IndexByte held 10 = some i) (hi : i < MaxScanTokenSize) :
    nextLine (held ++ rest) = some (dropCR (held.take i), held.drop (i + 1) ++ rest) := by
  have hlt := IndexByte_lt h
  simp only [nextLine, IndexByte_append_some rest h, hi, if_true]
  rw [List.take_append_of_le_length (by omega), List.drop_append_of_le_length (by omega)]

theorem nextLine_of_long {held : List Byte} (rest : List Byte)
    (h : IndexByte held 10 = none) (hl : MaxScanTokenSize ≤ held.length) :
    nextLine (held ++ rest) = none := by
  simp only [nextLine, IndexByte_append_none rest h]
  cases hr : IndexByte rest 10 with
  | some j =>
    simp only [Option.map_some']
    have : ¬ (j + held.length < MaxScanTokenSize) := by omega
    simp [this]
  | none =>
    simp only [Option.map_none']
    have h1 : held ++ rest ≠ [] := by
      intro h0
      have : held = [] := (List.append_eq_nil.mp h0).1
      subst this
      simp [MaxScanTokenSize] at hl
    have h2 : ¬ ((held ++ rest).length < MaxScanTokenSize) := by
      simp only [List.length_append]; omega
    simp only [h1, h2, if_false]

theorem nextLine_of_eof {held : List Byte} (h : IndexByte held 10 = none) (hne : held ≠ [])
    (hl : held.length < MaxScanTokenSize) : nextLine held = some (dropCR held, []) := by
  simp [nextLine, h, hne, hl]

theorem readLoop_spec (space : Nat) (hs : 0 < space) (r : Reader) (loop : Nat)
    (hr : progresses loop r = true) :
    (r.flatten = [] ∧ readLoop space loop r = ([], some Error.EOF, [])) ∨
    ∃ p r1, readLoop space loop r = (p, none, r1) ∧ p ≠ [] ∧ p.length ≤ space ∧
      p ++ r1.flatten = r.flatten ∧ progresses 0 r1 = true ∧
      r1.flatten.length + r1.length < r.flatten.length + r.length := by
  induction r generalizing loop with
  | nil => left; simp [readLoop]
  | cons c cs ih =>
    cases c with
    | nil =>
      simp only [progresses, Bool.and_eq_true, decide_eq_true_eq] at hr
      have hloop : ¬ (loop + 1 > maxConsecutiveEmptyReads) := by omega
      rcases ih (loop + 1) hr.2 with ⟨h0, hread⟩ | ⟨p, r1, hread, hp, hlen, hflat, hprog, hdec⟩
      · left
        refine ⟨by simpa using h0, ?_⟩
        simp only [readLoop, hloop, if_false, hread]
      · right
        refine ⟨p, r1, ?_, hp, hlen, by simpa using hflat, hprog, ?_⟩
        · simp only [readLoop, hloop, if_false, hread]
        · simp only [List.flatten_cons, List.nil_append, List.length_cons]; omega
    | cons b c =>
      right
      have hcs : progresses 0 cs = true := by simpa [progresses] using hr
      have hsp : space ≠ 0 := by omega
      by_cases hle : (b :: c).length ≤ space
      · refine ⟨b :: c, cs, ?_, by simp, hle, by simp, hcs, ?_⟩
        · simp only [readLoop, hsp, if_false, hle, if_true]
        · simp; omega
      · have hdrop : (b :: c).drop space ≠ [] := by
          intro h0
          have := congrArg List.length h0
          simp at this
          simp at hle
          omega
        refine ⟨(b :: c).take space, (b :: c).drop space :: cs, ?_, ?_, ?_, ?_, ?_, ?_⟩
        · simp only [readLoop, hsp, if_false, hle]
        · cases space with
          | zero => omega
          | succ k => simp
        · simp
        · simp only [List.flatten_cons, ← List.append_assoc, List.take_append_drop]
        · cases hd : (b :: c).drop space with
          | nil => exact absurd hd hdrop
          | cons x xs => simpa [progresses] using hcs
        · simp only [List.flatten_cons, List.length_append, List.length_drop, List.length_cons]
          simp at hle
          omega

end bufio

namespace bufio

theorem fill_spec (s : Scanner) (hinv : s.Inv) (herr : s.err = none)
    (hsp : s.start + s.held.length < s.bufLen) :
    s.fill.Inv ∧ s.fill.remaining = s.remaining ∧ s.fill.need < s.need := by
  rcases readLoop_spec (s.bufLen - (s.start + s.held.length)) (by omega) s.r 0 hinv.chunks with
    ⟨hr, hread⟩ | ⟨p, r1, hread, hp, hlen, hflat, hch, hdec⟩
  · have hfill : s.fill = { s with r := [], held := s.held ++ [], err := some Error.EOF } := by
      simp only [Scanner.fill, hread]
    rw [hfill]
    refine ⟨⟨?_, hinv.small, rfl, ?_⟩, ?_, ?_⟩
    · simpa using hinv.fits
    · right
      have := hinv.small
      refine ⟨rfl, rfl, ?_⟩
      simp only [List.append_nil]
      omega
    · simp [Scanner.remaining, hr]
    · simp only [Scanner.need, herr, if_true, List.flatten_nil, List.length_nil]
      simp
  · have hfill : s.fill = { s with r := r1, held := s.held ++ p, err := none } := by
      simp only [Scanner.fill, hread]
    rw [hfill]
    refine ⟨⟨?_, hinv.small, hch, Or.inl rfl⟩, ?_, ?_⟩
    · simp only [List.length_append]; omega
    · simp [Scanner.remaining, hflat]
    · simp only [Scanner.need, herr, if_true]; omega

end bufio

namespace bufio

theorem advance_zero (s : Scanner) : s.advance 0 = s := by
  cases s; rfl

theorem Scan_succ_token (fuel : Nat) (s : Scanner) (adv : Nat) (tok : List Byte)
    (h : s.split = (adv, some tok)) :
    s.Scan (fuel + 1) = (some tok, s.advance adv) := by
  simp only [Scanner.Scan, h]

theorem Scan_succ_more (fuel : Nat) (s : Scanner) (herr : s.err = none)
    (h : s.split = (0, none)) :
    s.Scan (fuel + 1) =
      if s.shift.start + s.shift.held.length = s.shift.bufLen then
        if MaxScanTokenSize ≤ s.shift.bufLen then
          (none, { s.shift with err := some Error.ErrTooLong })
        else Scanner.Scan fuel s.shift.grow.fill
      else Scanner.Scan fuel s.shift.fill := by
  simp only [Scanner.Scan, h, advance_zero, herr, ne_eq, not_true_eq_false, if_false]

end bufio

namespace bufio

theorem shift_spec (s : Scanner) (hinv : s.Inv) (herr : s.err = none) :
    s.shift.Inv ∧ s.shift.err = none ∧ s.shift.held = s.held ∧ s.shift.r = s.r ∧
      s.shift.bufLen = s.bufLen ∧
      (s.shift.start + s.shift.held.length = s.shift.bufLen → s.held.length = s.bufLen) := by
  have hfits := hinv.fits
  unfold Scanner.shift
  split
  · rename_i hsh
    refine ⟨⟨?_, hinv.small, hinv.chunks, Or.inl herr⟩, herr, rfl, rfl, rfl, ?_⟩
    · show 0 + s.held.length ≤ s.bufLen
      omega
    · intro h
      have : 0 + s.held.length = s.bufLen := h
      omega
  · rename_i hsh
    refine ⟨hinv, herr, rfl, rfl, rfl, ?_⟩
    intro h
    by_cases h0 : 0 < s.start
    · exact absurd ⟨h0, Or.inl h⟩ hsh
    · omega

theorem grow_spec (s : Scanner) (hinv : s.Inv) (herr : s.err = none)
    (hfull : s.held.length = s.bufLen) (hmax : ¬ MaxScanTokenSize ≤ s.bufLen) :
    s.grow.Inv ∧ s.grow.err = none ∧ s.grow.held = s.held ∧ s.grow.r = s.r ∧
      s.grow.start + s.grow.held.length < s.grow.bufLen := by
  have hlt : s.held.length <
      min (if s.bufLen * 2 = 0 then startBufSize else s.bufLen * 2) MaxScanTokenSize := by
    split
    · simp only [startBufSize, MaxScanTokenSize] at *; omega
    · simp only [MaxScanTokenSize] at *; omega
  refine ⟨⟨?_, ?_, hinv.chunks, Or.inl herr⟩, herr, rfl, rfl, ?_⟩
  · show 0 + s.held.length ≤
      min (if s.bufLen * 2 = 0 then startBufSize else s.bufLen * 2) MaxScanTokenSize
    omega
  · exact Nat.min_le_right _ _
  · show 0 + s.held.length <
      min (if s.bufLen * 2 = 0 then startBufSize else s.bufLen * 2) MaxScanTokenSize
    omega

theorem Scan_spec (fuel : Nat) (s : Scanner) (hinv : s.Inv) (hf : s.need ≤ fuel) :
    match nextLine s.remaining with
    | some (tok, rest) => ∃ s1, s.Scan fuel = (some tok, s1) ∧ s1.Inv ∧ s1.remaining = rest
    | none => (s.Scan fuel).1 = none := by
  induction fuel generalizing s with
  | zero => simp [Scanner.need] at hf
  | succ fuel ih =>
    have hfits := hinv.fits
    have hsmall := hinv.small
    rcases hinv.eof with herr | ⟨herr, hr, hlen⟩
    · -- no error recorded so far
      cases hidx : IndexByte s.held 10 with
      | some i =>
        have hi := IndexByte_lt hidx
        have hne : s.held ≠ [] := by intro h; rw [h] at hi; simp at hi
        have hmax : i < MaxScanTokenSize := by omega
        have hsplit : s.split = (i + 1, some (dropCR (s.held.take i))) := by
          simp [Scanner.split, hne, herr, ScanLines, hidx]
        rw [Scanner.remaining, nextLine_of_held_some _ hidx hmax]
        refine ⟨s.advance (i + 1), Scan_succ_token fuel s _ _ hsplit, ⟨?_, hsmall, hinv.chunks, Or.inl herr⟩, rfl⟩
        show s.start + (i + 1) + (s.held.drop (i + 1)).length ≤ s.bufLen
        simp only [List.length_drop]; omega
      | none =>
        have hsplit : s.split = (0, none) := by
          by_cases hne : s.held = []
          · simp [Scanner.split, hne, herr]
          · simp [Scanner.split, hne, herr, ScanLines, hidx]
        rw [Scan_succ_more fuel s herr hsplit]
        obtain ⟨hsinv, hserr, hsheld, hsr, hsbuf, hsfull⟩ := shift_spec s hinv herr
        have hrem : s.shift.remaining = s.remaining := by
          simp [Scanner.remaining, hsheld, hsr]
        have hneed : s.shift.need = s.need := by
          simp [Scanner.need, hserr, herr, hsr]
        by_cases hfull : s.shift.start + s.shift.held.length = s.shift.bufLen
        · simp only [hfull, if_true]
          have hlen := hsfull hfull
          by_cases hmax : MaxScanTokenSize ≤ s.shift.bufLen
          · simp only [hmax, if_true]
            rw [Scanner.remaining, nextLine_of_long _ hidx (by omega)]
            trivial
          · simp only [hmax, if_false]
            obtain ⟨hginv, hgerr, hgheld, hgr, hgsp⟩ :=
              grow_spec s.shift hsinv hserr (by rw [hsheld, hsbuf]; exact hlen) hmax
            obtain ⟨hfinv, hfrem, hfneed⟩ := fill_spec s.shift.grow hginv hgerr hgsp
            have hgrem : s.shift.grow.remaining = s.remaining := by
              simp [Scanner.remaining, hgheld, hgr, hsheld, hsr]
            have hgneed : s.shift.grow.need = s.need := by
              simp [Scanner.need, hgerr, herr, hgr, hsr]
            have := ih s.shift.grow.fill hfinv (by omega)
            rw [hfrem, hgrem] at this
            exact this
        · simp only [hfull, if_false]
          have hsfits := hsinv.fits
          obtain ⟨hfinv, hfrem, hfneed⟩ := fill_spec s.shift hsinv hserr (by omega)
          have := ih s.shift.fill hfinv (by omega)
          rw [hfrem, hrem] at this
          exact this
    · -- the reader is exhausted
      have hrem : s.remaining = s.held := by simp [Scanner.remaining, hr]
      rw [hrem]
      cases hidx : IndexByte s.held 10 with
      | some i =>
        have hi := IndexByte_lt hidx
        have hmax : i < MaxScanTokenSize := by omega
        have hsplit : s.split = (i + 1, some (dropCR (s.held.take i))) := by
          have hne : s.held ≠ [] := by intro h; rw [h] at hi; simp at hi
          simp [Scanner.split, herr, ScanLines, hidx, hne]
        have h2 := nextLine_of_held_some [] hidx hmax
        simp only [List.append_nil] at h2
        rw [h2]
        refine ⟨s.advance (i + 1), Scan_succ_token fuel s _ _ hsplit,
          ⟨?_, hsmall, hinv.chunks, Or.inr ⟨herr, hr, ?_⟩⟩, ?_⟩
        · show s.start + (i + 1) + (s.held.drop (i + 1)).length ≤ s.bufLen
          simp only [List.length_drop]; omega
        · show (s.held.drop (i + 1)).length < MaxScanTokenSize
          simp only [List.length_drop]; omega
        · show s.held.drop (i + 1) ++ s.r.flatten = _
          simp [hr]
      | none =>
        by_cases hne : s.held = []
        · rw [hne, nextLine_nil]
          simp [Scanner.Scan, Scanner.split, herr, hne, ScanLines, Scanner.advance]
        · have hsplit : s.split = (s.held.length, some (dropCR s.held)) := by
            simp [Scanner.split, herr, ScanLines, hidx, hne]
          rw [nextLine_of_eof hidx hne hlen]
          refine ⟨s.advance s.held.length, Scan_succ_token fuel s _ _ hsplit,
            ⟨?_, hsmall, hinv.chunks, Or.inr ⟨herr, hr, ?_⟩⟩, ?_⟩
          · show s.start + s.held.length + (s.held.drop s.held.length).length ≤ s.bufLen
            simp; omega
          · show (s.held.drop s.held.length).length < MaxScanTokenSize
            simp [MaxScanTokenSize]
          · show s.held.drop s.held.length ++ s.r.flatten = _
            simp [hr]

end bufio

namespace bufio

theorem need_le_fuel (s : Scanner) : s.need ≤ s.fuel := by
  unfold Scanner.need Scanner.fuel
  split <;> omega

theorem tokens_eq_streamLines (n : Nat) (s : Scanner) (hinv : s.Inv) :
    Scanner.tokens n s = streamLines n s.remaining := by
  induction n generalizing s with
  | zero => rfl
  | succ n ih =>
    have hspec := Scan_spec s.fuel s hinv (need_le_fuel s)
    simp only [Scanner.tokens, streamLines]
    cases hnext : nextLine s.remaining with
    | none =>
      rw [hnext] at hspec
      rcases hscan : s.Scan s.fuel with ⟨tok, s1⟩
      rw [hscan] at hspec
      simp only at hspec
      subst hspec
      rfl
    | some p =>
      obtain ⟨tok, rest⟩ := p
      rw [hnext] at hspec
      obtain ⟨s1, hscan, hinv1, hrem1⟩ := hspec
      rw [hscan]
      simp only
      rw [ih s1 hinv1, hrem1]

theorem NewScanner_inv (body : Reader) (h : progresses 0 body = true) : (NewScanner body).Inv :=
  ⟨Nat.le_refl _, Nat.zero_le _, h, Or.inl rfl⟩

theorem progresses_of_nonempty (body : Reader) (h : ∀ c ∈ body, c ≠ []) (run : Nat) :
    progresses run body = true := by
  induction body generalizing run with
  | nil => rfl
  | cons c cs ih =>
    cases c with
    | nil => exact absurd rfl (h [] (by simp))
    | cons b c => exact ih (fun d hd => h d (by simp [hd])) 0

theorem lines_eq_streamLines (body : Reader) (h : progresses 0 body = true) :
    lines body = streamLines (body.flatten.length + 1) body.flatten := by
  rw [lines, tokens_eq_streamLines _ _ (NewScanner_inv body h)]
  rfl

end bufio

/-! ## String routines -/

namespace strings

theorem HasPrefix_iff (s p : GoString) : HasPrefix s p = true ↔ p <+: s := by
  induction p generalizing s with
  | nil => cases s <;> simp [HasPrefix]
  | cons a p ih =>
    cases s with
    | nil => simp [HasPrefix]
    | cons c s =>
      simp only [HasPrefix, Bool.and_eq_true, beq_iff_eq, ih, List.cons_prefix_cons]
      constructor
      · rintro ⟨h1, h2⟩; exact ⟨h1.symm, h2⟩
      · rintro ⟨h1, h2⟩; exact ⟨h1.symm, h2⟩

theorem Contains_iff (s sub : GoString) : Contains s sub = true ↔ sub <:+: s := by
  induction s with
  | nil =>
    simp only [Contains, HasPrefix_iff, List.prefix_nil, List.infix_nil]
  | cons c s ih =>
    simp only [Contains, Bool.or_eq_true, HasPrefix_iff, ih, List.infix_cons_iff]

theorem trimLeftSpace_final (n : Nat) (s : GoString) : trimLeftSpace n s <:+ s := by
  induction n generalizing s with
  | zero => exact List.suffix_refl s
  | succ n ih =>
    simp only [trimLeftSpace]
    split
    · exact List.suffix_refl s
    · exact (ih _).trans (List.drop_suffix _ _)

theorem trimRightSpace_initial (n : Nat) (s : GoString) : trimRightSpace n s <+: s := by
  induction n generalizing s with
  | zero => exact List.prefix_refl s
  | succ n ih =>
    simp only [trimRightSpace]
    split
    · exact List.prefix_refl s
    · exact (ih _).trans ( List.take_prefix _ _)

theorem TrimSpace_within (s : GoString) : TrimSpace s <:+: s :=
  (trimRightSpace_initial _ _).isInfix.trans (trimLeftSpace_final _ _).isInfix

end strings

theorem payload_within (line : GoString) : payload line <:+: line :=
  (strings.TrimSpace_within _).trans (List.drop_suffix _ _).isInfix

theorem contains_of_payload_eq (line sub : GoString) (h : payload line = sub) :
    strings.Contains line sub = true := by
  rw [strings.Contains_iff, ← h]
  exact payload_within line

/-! ## White space -/

namespace strings

theorem spaceEncodings_ne_nil : ∀ e ∈ spaceEncodings, e ≠ [] := by decide!

theorem spaceEncodings_no_initial :
    ∀ e ∈ spaceEncodings, ∀ w ∈ spaceEncodings, HasPrefix w e = true → e = w := by decide!

theorem leadingSpace_spec (s : GoString) :
    (leadingSpace s = 0 ∧ ∀ e ∈ spaceEncodings, HasPrefix s e = false) ∨
      ∃ e ∈ spaceEncodings, leadingSpace s = e.length ∧ s = e ++ s.drop e.length := by
  unfold leadingSpace
  cases hf : spaceEncodings.find? (fun e => HasPrefix s e) with
  | none =>
    left
    refine ⟨rfl, fun e he => ?_⟩
    have := List.find?_eq_none.mp hf e he
    simpa using this
  | some e =>
    right
    have hmem := List.mem_of_find?_eq_some hf
    have hp := List.find?_some hf
    obtain ⟨t, ht⟩ := (HasPrefix_iff s e).mp hp
    refine ⟨e, hmem, rfl, ?_⟩
    rw [← ht]
    simp

theorem leadingSpace_append (w rest : GoString) (hw : w ∈ spaceEncodings) :
    leadingSpace (w ++ rest) = w.length := by
  rcases leadingSpace_spec (w ++ rest) with ⟨_, hnone⟩ | ⟨e, he, hlen, hs⟩
  · have := hnone w hw
    rw [Bool.eq_false_iff] at this
    exact absurd ((HasPrefix_iff _ _).mpr (List.prefix_append w rest)) this
  · have h1 : e <+: w ++ rest := ⟨_, hs.symm⟩
    have h2 : w <+: w ++ rest := List.prefix_append w rest
    rcases Nat.le_total e.length w.length with hle | hle
    · have := List.prefix_of_prefix_length_le h1 h2 hle
      rw [hlen, spaceEncodings_no_initial e he w hw ((HasPrefix_iff _ _).mpr this)]
    · have := List.prefix_of_prefix_length_le h2 h1 hle
      rw [hlen, spaceEncodings_no_initial w hw e he ((HasPrefix_iff _ _).mpr this)]

theorem trimLeftSpace_nil (n : Nat) : trimLeftSpace n [] = [] := by
  cases n with
  | zero => rfl
  | succ n =>
    have : leadingSpace [] = 0 := by decide!
    simp [trimLeftSpace, this]

theorem trimRightSpace_nil (n : Nat) : trimRightSpace n [] = [] := by
  cases n with
  | zero => rfl
  | succ n =>
    have : trailingSpace [] = 0 := by decide!
    simp [trimRightSpace, this]

theorem trimLeftSpace_blank (ws : List (List Byte)) (h : ∀ w ∈ ws, w ∈ spaceEncodings)
    (n : Nat) (hn : ws.length ≤ n) : trimLeftSpace n ws.flatten = [] := by
  induction ws generalizing n with
  | nil => exact trimLeftSpace_nil n
  | cons w ws ih =>
    cases n with
    | zero => simp at hn
    | succ n =>
      have hw := h w (by simp)
      have hne := spaceEncodings_ne_nil w hw
      have hlen : leadingSpace (w ++ ws.flatten) = w.length := leadingSpace_append w _ hw
      have hpos : w.length ≠ 0 := by
        intro h0; exact hne (List.length_eq_zero.mp h0)
      simp only [List.flatten_cons, trimLeftSpace, hlen, hpos, if_false,
        List.drop_left]
      exact ih (fun x hx => h x (by simp [hx])) n (by simpa using hn)

theorem length_le_flatten (ws : List (List Byte)) (h : ∀ w ∈ ws, w ∈ spaceEncodings) :
    ws.length ≤ ws.flatten.length := by
  induction ws with
  | nil => simp
  | cons w ws ih =>
    have hne := spaceEncodings_ne_nil w (h w (by simp))
    have := List.length_pos.mpr hne
    have := ih (fun x hx => h x (by simp [hx]))
    simp only [List.length_cons, List.flatten_cons, List.length_append]
    omega

theorem trimLeftSpace_decompose (n : Nat) (s : GoString) :
    ∃ ws : List (List Byte), (∀ w ∈ ws, w ∈ spaceEncodings) ∧
      s = ws.flatten ++ trimLeftSpace n s := by
  induction n generalizing s with
  | zero => exact ⟨[], by simp, by simp [trimLeftSpace]⟩
  | succ n ih =>
    rcases leadingSpace_spec s with ⟨h0, _⟩ | ⟨e, he, hlen, hs⟩
    · exact ⟨[], by simp, by simp [trimLeftSpace, h0]⟩
    · obtain ⟨ws, hws, hdec⟩ := ih (s.drop e.length)
      have hpos : e.length ≠ 0 := by
        intro h0; exact spaceEncodings_ne_nil e he (List.length_eq_zero.mp h0)
      refine ⟨e :: ws, ?_, ?_⟩
      · intro w hw
        rcases List.mem_cons.mp hw with rfl | hw
        · exact he
        · exact hws w hw
      · simp only [trimLeftSpace, hlen, hpos, if_false, List.flatten_cons, List.append_assoc]
        rw [← hdec]
        exact hs

theorem trailingSpace_spec (s : GoString) :
    trailingSpace s = 0 ∨
      ∃ e ∈ spaceEncodings, trailingSpace s = e.length ∧
        s = s.take (s.length - e.length) ++ e := by
  unfold trailingSpace
  cases hf : spaceEncodings.find? (fun e => HasPrefix s.reverse e.reverse) with
  | none => left; rfl
  | some e =>
    right
    have hmem := List.mem_of_find?_eq_some hf
    have hp := List.find?_some hf
    have hsuf : e <:+ s := List.reverse_prefix.mp ((HasPrefix_iff _ _).mp hp)
    obtain ⟨t, ht⟩ := hsuf
    refine ⟨e, hmem, rfl, ?_⟩
    rw [← ht]
    simp

theorem trimRightSpace_decompose (n : Nat) (s : GoString) :
    ∃ vs : List (List Byte), (∀ w ∈ vs, w ∈ spaceEncodings) ∧
      s = trimRightSpace n s ++ vs.flatten := by
  induction n generalizing s with
  | zero => exact ⟨[], by simp, by simp [trimRightSpace]⟩
  | succ n ih =>
    rcases trailingSpace_spec s with h0 | ⟨e, he, hlen, hs⟩
    · exact ⟨[], by simp, by simp [trimRightSpace, h0]⟩
    · obtain ⟨vs, hvs, hdec⟩ := ih (s.take (s.length - e.length))
      have hpos : e.length ≠ 0 := by
        intro h0; exact spaceEncodings_ne_nil e he (List.length_eq_zero.mp h0)
      refine ⟨vs ++ [e], ?_, ?_⟩
      · intro w hw
        rcases List.mem_append.mp hw with hw | hw
        · exact hvs w hw
        · rw [List.mem_singleton.mp hw]; exact he
      · simp only [trimRightSpace, hlen, hpos, if_false, List.flatten_append,
          List.flatten_cons, List.flatten_nil, List.append_nil, ← List.append_assoc]
        rw [← hdec]
        exact hs

theorem TrimSpace_eq_nil_iff (s : GoString) : TrimSpace s = [] ↔ IsBlank s := by
  constructor
  · intro h
    obtain ⟨ws, hws, hl⟩ := trimLeftSpace_decompose s.length s
    obtain ⟨vs, hvs, hr⟩ := trimRightSpace_decompose s.length (trimLeftSpace s.length s)
    unfold TrimSpace at h
    rw [h, List.nil_append] at hr
    refine ⟨ws ++ vs, ?_, ?_⟩
    · intro w hw
      rcases List.mem_append.mp hw with hw | hw
      · exact hws w hw
      · exact hvs w hw
    · rw [List.flatten_append, ← hr]
      exact hl
  · rintro ⟨ws, hws, rfl⟩
    unfold TrimSpace
    rw [trimLeftSpace_blank ws hws _ (length_le_flatten ws hws), trimRightSpace_nil]

end strings

theorem payload_eq_nil_iff (line : GoString) :
    payload line = [] ↔ IsBlank (line.drop (goString "data:").length) :=
  strings.TrimSpace_eq_nil_iff _

/-! ## Single iterations of the loop -/

theorem loopBody_skip (unmarshal : GoString → Except json.Error streamResponse)
    (full line : GoString) (h : IsSkipLine line) : loopBody unmarshal full line = Step.next full := by
  rcases h with h | h
  · simp [loopBody, h]
  · simp [loopBody, (payload_eq_nil_iff line).mpr h]

theorem loopBody_done (unmarshal : GoString → Except json.Error streamResponse)
    (full line : GoString) (hp : strings.HasPrefix line (goString "data:") = true)
    (hd : payload line ≠ []) (hc : strings.Contains line (goString "[DONE]") = true) :
    loopBody unmarshal full line = Step.done full := by
  simp [loopBody, hp, hd, hc]

theorem loopBody_content (unmarshal : GoString → Except json.Error streamResponse)
    (full line content : GoString) (h : IsContentEvent unmarshal line content)
    (hc : strings.Contains line (goString "[DONE]") = false) :
    loopBody unmarshal full line = Step.next (full ++ content) := by
  obtain ⟨hp, hd, sr, choice, rest, hu, hch, hfin, hcont⟩ := h
  simp [loopBody, hp, hd, hc, hu, hch, hfin, hcont]

theorem loopBody_finish (unmarshal : GoString → Except json.Error streamResponse)
    (full line : GoString) (h : IsFinishEvent unmarshal line) :
    loopBody unmarshal full line = Step.next full ∨ loopBody unmarshal full line = Step.done full := by
  obtain ⟨hp, sr, choice, rest, hu, hch, hfin⟩ := h
  by_cases hd : payload line = []
  · left; simp [loopBody, hp, hd]
  · by_cases hc : strings.Contains line (goString "[DONE]") = true
    · right; simp [loopBody, hp, hd, hc]
    · left; simp [loopBody, hp, hd, hc, hu, hch, hfin]

theorem loopBody_malformed (unmarshal : GoString → Except json.Error streamResponse)
    (full line : GoString) (e : json.Error)
    (hp : strings.HasPrefix line (goString "data:") = true)
    (hu : unmarshal (payload line) = Except.error e)
    (hc : strings.Contains line (goString "[DONE]") = false) :
    loopBody unmarshal full line = Step.next full := by
  by_cases hd : payload line = []
  · simp [loopBody, hp, hd]
  · simp [loopBody, hp, hd, hc, hu]

/-! ## The loop over a list of lines -/

theorem consume_cons_next (unmarshal : GoString → Except json.Error streamResponse)
    (full full1 line : GoString) (rest : List GoString)
    (h : loopBody unmarshal full line = Step.next full1) :
    consume unmarshal full (line :: rest) = consume unmarshal full1 rest := by
  simp [consume, h]

theorem consume_cons_done (unmarshal : GoString → Except json.Error streamResponse)
    (full full1 line : GoString) (rest : List GoString)
    (h : loopBody unmarshal full line = Step.done full1) :
    consume unmarshal full (line :: rest) = Except.ok full1 := by
  simp [consume, h]

theorem consume_insert_next (unmarshal : GoString → Except json.Error streamResponse)
    (line : GoString) (h : ∀ full, loopBody unmarshal full line = Step.next full)
    (full : GoString) (pre post : List GoString) :
    consume unmarshal full (pre ++ line :: post) = consume unmarshal full (pre ++ post) := by
  induction pre generalizing full with
  | nil => simpa using consume_cons_next unmarshal full full line post (h full)
  | cons l pre ih =>
    simp only [List.cons_append, consume]
    cases loopBody unmarshal full l with
    | next f => exact ih f
    | done f => rfl
    | panic => rfl

theorem consume_stop_at (unmarshal : GoString → Except json.Error streamResponse)
    (line : GoString)
    (h : ∀ full, loopBody unmarshal full line = Step.next full ∨
      loopBody unmarshal full line = Step.done full)
    (full : GoString) (pre : List GoString) :
    consume unmarshal full (pre ++ [line]) = consume unmarshal full pre := by
  induction pre generalizing full with
  | nil =>
    rcases h full with h1 | h1
    · simpa [consume] using consume_cons_next unmarshal full full line [] h1
    · simpa [consume] using consume_cons_done unmarshal full full line [] h1
  | cons l pre ih =>
    simp only [List.cons_append, consume]
    cases loopBody unmarshal full l with
    | next f => exact ih f
    | done f => rfl
    | panic => rfl

theorem consume_done_at (unmarshal : GoString → Except json.Error streamResponse)
    (line : GoString) (h : ∀ full, loopBody unmarshal full line = Step.done full)
    (full : GoString) (pre post : List GoString) :
    consume unmarshal full (pre ++ line :: post) = consume unmarshal full pre := by
  induction pre generalizing full with
  | nil => simpa [consume] using consume_cons_done unmarshal full full line post (h full)
  | cons l pre ih =>
    simp only [List.cons_append, consume]
    cases loopBody unmarshal full l with
    | next f => exact ih f
    | done f => rfl
    | panic => rfl

theorem consume_events (unmarshal : GoString → Except json.Error streamResponse)
    (events : List (GoString × GoString))
    (hev : ∀ e ∈ events, IsContentEvent unmarshal e.1 e.2)
    (hdone : ∀ e ∈ events, strings.Contains e.1 (goString "[DONE]") = false)
    (full : GoString) :
    consume unmarshal full (events.map Prod.fst) =
      Except.ok (full ++ (events.map Prod.snd).flatten) := by
  induction events generalizing full with
  | nil => simp [consume]
  | cons e es ih =>
    have h1 := loopBody_content unmarshal full e.1 e.2 (hev e (by simp)) (hdone e (by simp))
    simp only [List.map_cons, List.flatten_cons]
    rw [consume_cons_next unmarshal full _ e.1 _ h1,
      ih (fun x hx => hev x (by simp [hx])) (fun x hx => hdone x (by simp [hx]))]
    simp

theorem consume_reference (unmarshal : GoString → Except json.Error streamResponse)
    (lines : List GoString)
    (hdone : ∀ l ∈ lines, strings.Contains l (goString "[DONE]") = false)
    (hchoices : ∀ l ∈ lines, ∀ sr, strings.HasPrefix l (goString "data:") = true →
      unmarshal (payload l) = Except.ok sr → sr.Choices ≠ [])
    (full : GoString) :
    consume unmarshal full lines = Except.ok (full ++ referenceText unmarshal lines) := by
  induction lines generalizing full with
  | nil => simp [consume, referenceText]
  | cons l ls ih =>
    have ih1 := fun f => ih (fun x hx => hdone x (by simp [hx]))
      (fun x hx => hchoices x (by simp [hx])) f
    have hd := hdone l (by simp)
    have hch := hchoices l (by simp)
    simp only [referenceText] at ih1 ⊢
    by_cases hp : strings.HasPrefix l (goString "data:") = true
    · by_cases hpl : payload l = []
      · rw [consume_cons_next unmarshal full full l ls (by simp [loopBody, hp, hpl]), ih1]
        simp [lineContent, hp, hpl]
      · cases hu : unmarshal (payload l) with
        | error e =>
          rw [consume_cons_next unmarshal full full l ls (by simp [loopBody, hp, hpl, hd, hu]), ih1]
          simp [lineContent, hp, hpl, hu]
        | ok sr =>
          have hne := hch sr hp hu
          cases hcs : sr.Choices with
          | nil => exact absurd hcs hne
          | cons choice rest =>
            by_cases hfin : choice.FinishReason.isNil = true
            · rw [consume_cons_next unmarshal full (full ++ choice.Delta.Content) l ls
                (by simp [loopBody, hp, hpl, hd, hu, hcs, hfin]), ih1]
              simp [lineContent, hp, hpl, hu, hcs, hfin]
            · rw [consume_cons_next unmarshal full full l ls
                (by simp [loopBody, hp, hpl, hd, hu, hcs, hfin]), ih1]
              simp [lineContent, hp, hpl, hu, hcs, hfin]
    · rw [consume_cons_next unmarshal full full l ls (by simp [loopBody, hp]), ih1]
      simp [lineContent, hp]

theorem status_gate_aux (unmarshal : GoString → Except json.Error streamResponse)
    (resp : Response) (hstatus : resp.StatusCode ≠ StatusOK) :
    handleStreamInput unmarshal resp = Except.ok [] := by
  simp [handleStreamInput, hstatus]

theorem choices_ne_nil_of (unmarshal : GoString → Except json.Error streamResponse)
    (lines : List GoString)
    (h : ∀ l ∈ lines, ((unmarshal (payload l)).toOption.map fun sr => sr.Choices.isEmpty)
      ≠ some true) :
    ∀ l ∈ lines, ∀ sr, strings.HasPrefix l (goString "data:") = true →
      unmarshal (payload l) = Except.ok sr → sr.Choices ≠ [] := by
  intro l hl sr _ hu hnil
  apply h l hl
  simp [hu, Except.toOption, hnil]

/-! ## The iteration bounds of the embedding are adequate -/

namespace bufio

theorem readLoop_general (space : Nat) (r : Reader) (loop : Nat) :
    (readLoop space loop r).1 ++ (readLoop space loop r).2.2.flatten = r.flatten ∧
      (readLoop space loop r).2.2.flatten.length + (readLoop space loop r).2.2.length
        ≤ r.flatten.length + r.length ∧
      ((readLoop space loop r).2.1 ≠ none ∨
        (readLoop space loop r).2.2.flatten.length + (readLoop space loop r).2.2.length
          < r.flatten.length + r.length) := by
  induction r generalizing loop with
  | nil => simp [readLoop]
  | cons c cs ih =>
    cases c with
    | nil =>
      by_cases hloop : loop + 1 > maxConsecutiveEmptyReads
      · simp [readLoop, hloop]
      · obtain ⟨h1, h2, h3⟩ := ih (loop + 1)
        simp only [readLoop, hloop, if_false, List.flatten_cons, List.nil_append,
          List.length_cons]
        refine ⟨h1, by omega, ?_⟩
        rcases h3 with h3 | h3
        · exact Or.inl h3
        · exact Or.inr (by omega)
    | cons b c =>
      by_cases hsp : space = 0
      · simp [readLoop, hsp]
      · by_cases hle : (b :: c).length ≤ space
        · have hread : readLoop space loop ((b :: c) :: cs) = (b :: c, none, cs) := by
            simp only [readLoop, hsp, if_false, hle, if_true]
          rw [hread]
          simp only [List.flatten_cons, List.length_append, List.length_cons]
          refine ⟨trivial, by omega, Or.inr (by omega)⟩
        · have hread : readLoop space loop ((b :: c) :: cs)
              = ((b :: c).take space, none, (b :: c).drop space :: cs) := by
            simp only [readLoop, hsp, if_false, hle]
          rw [hread]
          simp only [List.flatten_cons, List.length_append, List.length_cons, List.length_drop]
          simp only [List.length_cons, not_le] at hle
          refine ⟨?_, by omega, Or.inr (by omega)⟩
          rw [← List.append_assoc, List.take_append_drop]

theorem fill_general (s : Scanner) (herr : s.err = none) :
    s.fill.remaining = s.remaining ∧ s.fill.need < s.need := by
  obtain ⟨h1, h2, h3⟩ := readLoop_general (s.bufLen - (s.start + s.held.length)) s.r 0
  rcases hread : readLoop (s.bufLen - (s.start + s.held.length)) 0 s.r with ⟨p, err, r1⟩
  rw [hread] at h1 h2 h3
  simp only at h1 h2 h3
  have hfill : s.fill = { s with r := r1, held := s.held ++ p, err := err } := by
    simp only [Scanner.fill, hread]
  rw [hfill]
  constructor
  · simp [Scanner.remaining, h1]
  · simp only [Scanner.need, herr, if_true]
    rcases h3 with h3 | h3
    · simp only [h3, if_false]; omega
    · split <;> omega

theorem Scan_fuel_mono (fuel fuel1 : Nat) (s : Scanner) (hneed : s.need ≤ fuel)
    (hle : fuel ≤ fuel1) : s.Scan fuel1 = s.Scan fuel := by
  induction fuel generalizing fuel1 s with
  | zero => simp [Scanner.need] at hneed
  | succ fuel ih =>
    cases fuel1 with
    | zero => omega
    | succ fuel1 =>
      have hrec : ∀ t : Scanner, t.r = s.r → t.err = none → s.err = none →
          Scanner.Scan fuel1 t.fill = Scanner.Scan fuel t.fill := by
        intro t hr ht hs
        have hn : t.need = s.need := by simp [Scanner.need, hr, ht, hs]
        have := (fill_general t ht).2
        exact ih fuel1 t.fill (by omega) (by omega)
      simp only [Scanner.Scan]
      rcases s.split with ⟨adv, tok⟩
      cases tok with
      | some token => rfl
      | none =>
        simp only
        by_cases herr : (s.advance adv).err ≠ none
        · rw [if_pos herr, if_pos herr]
        · rw [if_neg herr, if_neg herr]
          have herr1 : (s.advance adv).err = none := by simpa using herr
          have hs : s.err = none := herr1
          have hshift : (s.advance adv).shift.err = none ∧ (s.advance adv).shift.r = s.r := by
            unfold Scanner.shift
            split <;> exact ⟨herr1, rfl⟩
          have hgrow : (s.advance adv).shift.grow.err = none ∧
              (s.advance adv).shift.grow.r = s.r := hshift
          split
          · split
            · rfl
            · exact hrec _ hgrow.2 hgrow.1 hs
          · exact hrec _ hshift.2 hshift.1 hs

theorem Scan_fuel_adequate (fuel : Nat) (s : Scanner) (h : s.fuel ≤ fuel) :
    s.Scan fuel = s.Scan s.fuel :=
  Scan_fuel_mono s.fuel fuel s (need_le_fuel s) h

theorem split_token (s : Scanner) (adv : Nat) (tok : List Byte)
    (h : s.split = (adv, some tok)) : 0 < adv ∧ adv ≤ s.held.length := by
  unfold Scanner.split at h
  split at h
  · unfold ScanLines at h
    split at h
    · simp at h
    · rename_i hne
      split at h
      · rename_i i hidx
        have := IndexByte_lt hidx
        simp only [Prod.mk.injEq] at h
        omega
      · split at h
        · rename_i hat
          simp only [Prod.mk.injEq] at h
          have hlen : s.held ≠ [] := by
            intro h0
            simp [h0, hat] at hne
          have := List.length_pos.mpr hlen
          omega
        · simp at h
  · simp at h

theorem Scan_consumes (fuel : Nat) (s s1 : Scanner) (tok : List Byte)
    (h : s.Scan fuel = (some tok, s1)) : s1.remaining.length < s.remaining.length := by
  induction fuel generalizing s with
  | zero => simp [Scanner.Scan] at h
  | succ fuel ih =>
    simp only [Scanner.Scan] at h
    rcases hsplit : s.split with ⟨adv, t⟩
    rw [hsplit] at h
    cases t with
    | some token =>
      simp only [Prod.mk.injEq] at h
      obtain ⟨h0, h1⟩ := split_token s adv token hsplit
      rw [← h.2]
      simp only [Scanner.remaining, Scanner.advance, List.length_append, List.length_drop]
      omega
    | none =>
      simp only at h
      have hrem : ∀ t : Scanner, t.err = none → t.held = s.held.drop adv → t.r = s.r →
          Scanner.Scan fuel t.fill = (some tok, s1) →
          s1.remaining.length < s.remaining.length := by
        intro t ht hheld hr hscan
        have h1 := ih t.fill hscan
        rw [(fill_general t ht).1] at h1
        simp only [Scanner.remaining, hheld, hr, List.length_append, List.length_drop] at h1 ⊢
        omega
      by_cases herr : (s.advance adv).err ≠ none
      · rw [if_pos herr] at h
        simp at h
      · rw [if_neg herr] at h
        have herr1 : (s.advance adv).err = none := by simpa using herr
        have hshift : (s.advance adv).shift.err = none ∧
            (s.advance adv).shift.held = s.held.drop adv ∧ (s.advance adv).shift.r = s.r := by
          unfold Scanner.shift
          split <;> exact ⟨herr1, rfl, rfl⟩
        have hgrow : (s.advance adv).shift.grow.err = none ∧
            (s.advance adv).shift.grow.held = s.held.drop adv ∧
            (s.advance adv).shift.grow.r = s.r := hshift
        split at h
        · split at h
          · simp at h
          · exact hrem _ hgrow.1 hgrow.2.1 hgrow.2.2 h
        · exact hrem _ hshift.1 hshift.2.1 hshift.2.2 h

theorem tokens_fuel_mono (n m : Nat) (s : Scanner) (hn : s.remaining.length < n)
    (hle : n ≤ m) : Scanner.tokens m s = Scanner.tokens n s := by
  induction n generalizing m s with
  | zero => omega
  | succ n ih =>
    cases m with
    | zero => omega
    | succ m =>
      simp only [Scanner.tokens]
      rcases hscan : s.Scan s.fuel with ⟨tok, s1⟩
      cases tok with
      | none => rfl
      | some token =>
        simp only
        have := Scan_consumes _ _ _ _ hscan
        rw [ih m s1 (by omega) (by omega)]

end bufio

theorem bufio.nextLine_shorter (stream rest : List Byte) (tok : GoString)
    (h : bufio.nextLine stream = some (tok, rest)) : rest.length < stream.length := by
  unfold bufio.nextLine at h
  split at h
  · rename_i i hidx
    have := bufio.IndexByte_lt hidx
    split at h
    · simp only [Option.some.injEq, Prod.mk.injEq] at h
      rw [← h.2, List.length_drop]
      omega
    · simp at h
  · split at h
    · simp at h
    · rename_i hne
      split at h
      · simp only [Option.some.injEq, Prod.mk.injEq] at h
        rw [← h.2]
        exact List.length_pos.mpr hne
      · simp at h

theorem bufio.streamLines_fuel_mono (n m : Nat) (stream : List Byte)
    (hn : stream.length < n) (hle : n ≤ m) :
    bufio.streamLines m stream = bufio.streamLines n stream := by
  induction n generalizing m stream with
  | zero => omega
  | succ n ih =>
    cases m with
    | zero => omega
    | succ m =>
      simp only [bufio.streamLines]
      cases hnext : bufio.nextLine stream with
      | none => rfl
      | some p =>
        obtain ⟨tok, rest⟩ := p
        have := bufio.nextLine_shorter stream rest tok hnext
        simp only
        rw [ih m rest (by omega) (by omega)]

theorem handleStreamInput_fuel_adequate
    (unmarshal : GoString → Except json.Error streamResponse) (resp : Response)
    (hstatus : resp.StatusCode = StatusOK) (n : Nat) (hn : resp.Body.flatten.length + 1 ≤ n) :
    scanLoop unmarshal n (bufio.NewScanner resp.Body) [] = handleStreamInput unmarshal resp := by
  rw [handleStreamInput_eq_consume _ _ hstatus, scanLoop_eq_consume, bufio.lines,
    bufio.tokens_fuel_mono (resp.Body.flatten.length + 1) n _
      (by simp [bufio.Scanner.remaining, bufio.NewScanner]) hn]

/-! ## The scanned lines in terms of the line feeds of the stream -/

namespace bufio

theorem IndexByte_none_not_mem {l : List Byte} {c : Byte} (h : IndexByte l c = none) :
    c ∉ l := by
  induction l with
  | nil => simp
  | cons b bs ih =>
    simp only [IndexByte] at h
    split at h
    · simp at h
    · rename_i hne
      cases hb : IndexByte bs c with
      | some j => simp [hb] at h
      | none =>
        intro hmem
        rcases List.mem_cons.mp hmem with h1 | h1
        · exact hne h1.symm
        · exact ih hb h1

theorem IndexByte_split {l : List Byte} {c : Byte} {i : Nat} (h : IndexByte l c = some i) :
    l = l.take i ++ c :: l.drop (i + 1) ∧ c ∉ l.take i := by
  induction l generalizing i with
  | nil => simp [IndexByte] at h
  | cons b bs ih =>
    simp only [IndexByte] at h
    split at h
    · rename_i hb
      simp only [Option.some.injEq] at h
      subst h
      simp [hb]
    · rename_i hne
      cases hb : IndexByte bs c with
      | none => simp [hb] at h
      | some j =>
        simp only [hb, Option.map_some', Option.some.injEq] at h
        subst h
        obtain ⟨h1, h2⟩ := ih hb
        refine ⟨?_, ?_⟩
        · simp only [List.take_succ_cons, List.drop_succ_cons, List.cons_append]
          rw [← h1]
        · simp only [List.take_succ_cons, List.mem_cons, not_or]
          exact ⟨fun hc => hne hc.symm, h2⟩

theorem rawLines_append_lf (xs ys cur : List Byte) (h : (10 : Byte) ∉ xs) :
    rawLines (xs ++ 10 :: ys) cur = (cur ++ xs) :: rawLines ys [] := by
  induction xs generalizing cur with
  | nil => simp [rawLines]
  | cons x xs ih =>
    have hx : x ≠ 10 := fun hx => h (by simp [hx])
    have hxs : (10 : Byte) ∉ xs := fun hm => h (by simp [hm])
    simp only [List.cons_append, rawLines, hx, if_false, List.append_eq]
    rw [ih _ hxs]
    simp

theorem rawLines_no_lf (xs cur : List Byte) (h : (10 : Byte) ∉ xs) :
    rawLines xs cur = if cur ++ xs = [] then [] else [cur ++ xs] := by
  induction xs generalizing cur with
  | nil => simp [rawLines]
  | cons x xs ih =>
    have hx : x ≠ 10 := fun hx => h (by simp [hx])
    have hxs : (10 : Byte) ∉ xs := fun hm => h (by simp [hm])
    simp only [rawLines, hx, if_false]
    rw [ih _ hxs]
    simp

theorem streamLines_nil (n : Nat) : streamLines n [] = [] := by
  cases n with
  | zero => rfl
  | succ n => simp [streamLines, nextLine_nil]

theorem streamLines_eq_rawLines (n : Nat) (stream : List Byte) (hn : stream.length < n) :
    streamLines n stream = ((rawLines stream []).takeWhile shortLine).map dropCR := by
  induction n generalizing stream with
  | zero => omega
  | succ n ih =>
    simp only [streamLines, nextLine]
    cases hidx : IndexByte stream 10 with
    | some i =>
      obtain ⟨hsplit, hnot⟩ := IndexByte_split hidx
      have hi := IndexByte_lt hidx
      have hraw : rawLines stream [] = stream.take i :: rawLines (stream.drop (i + 1)) [] := by
        conv_lhs => rw [hsplit]
        rw [rawLines_append_lf _ _ _ hnot]
        simp
      have hlen : (stream.take i).length = i := by
        rw [List.length_take]; omega
      rw [hraw]
      by_cases hshort : i < MaxScanTokenSize
      · simp only [hshort, if_true]
        rw [List.takeWhile_cons_of_pos (by simp [shortLine, hlen, hshort]), List.map_cons,
          ih (stream.drop (i + 1)) (by rw [List.length_drop]; omega)]
      · simp only [hshort, if_false]
        rw [List.takeWhile_cons_of_neg (by simp [shortLine, hlen, hshort])]
        rfl
    | none =>
      have hnot := IndexByte_none_not_mem hidx
      rw [rawLines_no_lf _ _ hnot]
      simp only [List.nil_append]
      by_cases hnil : stream = []
      · simp [hnil]
      · simp only [hnil, if_false]
        by_cases hshort : stream.length < MaxScanTokenSize
        · simp only [hshort, if_true]
          rw [List.takeWhile_cons_of_pos (by simp [shortLine, hshort]), streamLines_nil]
          rfl
        · simp only [hshort, if_false]
          rw [List.takeWhile_cons_of_neg (by simp [shortLine, hshort])]
          rfl

theorem lines_eq_rawLines (body : Reader) (h : progresses 0 body = true) :
    lines body = ((rawLines body.flatten []).takeWhile shortLine).map dropCR := by
  rw [lines_eq_streamLines body h, streamLines_eq_rawLines _ _ (Nat.lt_succ_self _)]

theorem lines_eq_bodyLines (body : Reader) (h : progresses 0 body = true)
    (hshort : ∀ r ∈ rawLines body.flatten [], r.length < MaxScanTokenSize) :
    lines body = bodyLines body := by
  rw [lines_eq_rawLines body h, bodyLines, List.takeWhile_eq_self_iff.mpr]
  intro r hr
  simp [shortLine, hshort r hr]

end bufio

/-! ## Concrete bodies -/

theorem goString_data : goString "data:" = [100, 97, 116, 97, 58] := by decide!

theorem goString_done : goString "[DONE]" = [91, 68, 79, 78, 69, 93] := by decide!

theorem HasPrefix_replicate (n : Nat) (c p : Byte) (ps : GoString) (h : c ≠ p) :
    strings.HasPrefix (List.replicate n c) (p :: ps) = false := by
  cases n with
  | zero => rfl
  | succ n => simp [List.replicate_succ, strings.HasPrefix, h]

theorem Contains_replicate (n : Nat) (c p : Byte) (ps : GoString) (h : c ≠ p) :
    strings.Contains (List.replicate n c) (p :: ps) = false := by
  induction n with
  | zero => rfl
  | succ n ih =>
    have h1 := HasPrefix_replicate (n + 1) c p ps h
    rw [List.replicate_succ] at h1
    simp only [List.replicate_succ, strings.Contains, h1, ih, Bool.or_self]

theorem dropCR_replicate (n : Nat) (c : Byte) (h : c ≠ 13) :
    bufio.dropCR (List.replicate n c) = List.replicate n c := by
  unfold bufio.dropCR
  split
  · rename_i hlast
    have hmem := List.mem_of_getLast?_eq_some hlast
    exact absurd (List.eq_of_mem_replicate hmem).symm h
  · rfl

theorem longLine_skip : IsSkipLine longLine :=
  Or.inl (by rw [goString_data]; exact HasPrefix_replicate _ _ _ _ (by decide))

theorem longLine_not_short : bufio.shortLine longLine = false := by
  simp [bufio.shortLine, longLine]

theorem longLine_no_lf : (10 : Byte) ∉ longLine := by
  intro h
  have := List.eq_of_mem_replicate h
  exact absurd this (by decide)

theorem rawLines_wire (ls : List GoString) (h : ∀ l ∈ ls, (10 : Byte) ∉ l) :
    bufio.rawLines ((ls.map fun l => l ++ [10]).flatten) [] = ls := by
  induction ls with
  | nil => rfl
  | cons l ls ih =>
    simp only [List.map_cons, List.flatten_cons, List.append_assoc, List.singleton_append]
    rw [bufio.rawLines_append_lf _ _ _ (h l (by simp)), ih (fun x hx => h x (by simp [hx]))]
    simp

theorem rawLines_oneChunk (ls : List GoString) (h : ∀ l ∈ ls, (10 : Byte) ∉ l) :
    bufio.rawLines (oneChunk ls).flatten [] = ls := by
  simp only [oneChunk, List.flatten_cons, List.flatten_nil, List.append_nil]
  exact rawLines_wire ls h

theorem progresses_oneChunk (ls : List GoString) : bufio.progresses 0 (oneChunk ls) = true := by
  unfold oneChunk
  cases (ls.map fun l => l ++ [10]).flatten with
  | nil => decide
  | cons b c => rfl

theorem consume_insert_short (unmarshal : GoString → Except json.Error streamResponse)
    (r : List Byte) (hshort : bufio.shortLine r = true) (hskip : IsSkipLine (bufio.dropCR r))
    (full : GoString) (pre post : List (List Byte)) :
    consume unmarshal full (((pre ++ r :: post).takeWhile bufio.shortLine).map bufio.dropCR)
      = consume unmarshal full (((pre ++ post).takeWhile bufio.shortLine).map bufio.dropCR) := by
  induction pre generalizing full with
  | nil =>
    simp only [List.nil_append, List.takeWhile_cons_of_pos hshort, List.map_cons]
    exact consume_cons_next unmarshal full full _ _ (loopBody_skip unmarshal full _ hskip)
  | cons x pre ih =>
    by_cases hx : bufio.shortLine x = true
    · simp only [List.cons_append, List.takeWhile_cons_of_pos hx, List.map_cons, consume]
      cases loopBody unmarshal full (bufio.dropCR x) with
      | next f => exact ih f
      | done f => rfl
      | panic => rfl
    · simp only [List.cons_append, List.takeWhile_cons_of_neg hx]

/-! ## Properties of `handleStreamInput` -/

theorem isContentEvent_of_lineContent (unmarshal : GoString → Except json.Error streamResponse)
    (line content : GoString) (h : lineContent unmarshal line = some content) :
    IsContentEvent unmarshal line content := by
  unfold lineContent at h
  split at h
  · rename_i hc
    obtain ⟨hp, hd⟩ := hc
    refine ⟨hp, hd, ?_⟩
    split at h
    · rename_i sr hu
      split at h
      · rename_i choice rest hch
        split at h
        · rename_i hfin
          exact ⟨sr, choice, rest, hu, hch, hfin, by simpa using h⟩
        · simp at h
      · simp at h
    · simp at h
  · simp at h

/-- Ordering of the accumulated text: when the response has status 200, its body
is scanned into the data lines `events.map Prod.fst`, each line is an event
whose first choice has the paired delta content and a nil finish reason, and no
line contains the substring `[DONE]`, then the returned text is the
concatenation of the contents in order. -/
theorem ordering_invariant_without_done
    (unmarshal : GoString → Except json.Error streamResponse) (resp : Response)
    (events : List (GoString × GoString))
    (hstatus : resp.StatusCode = StatusOK)
    (hbody : bufio.lines resp.Body = events.map Prod.fst)
    (hevents : ∀ e ∈ events, IsContentEvent unmarshal e.1 e.2)
    (hdone : ∀ e ∈ events, strings.Contains e.1 (goString "[DONE]") = false) :
    handleStreamInput unmarshal resp = Except.ok (events.map Prod.snd).flatten := by
  rw [handleStreamInput_eq_consume _ _ hstatus, hbody, consume_events _ _ hevents hdone]
  simp

/-- C1 (the code at the failing input). The single event line
`data: {"choices":[{"index":0,"delta":{"content":"[DONE]"},"finish_reason":null}]}`
has the delta content `[DONE]` and a null finish reason; the loop takes the line
for the end marker, and the returned text is empty, not `[DONE]`. -/
theorem ordering_done_content_lost :
    bufio.lines (oneChunk [eventLine "[DONE]" "null"]) = [eventLine "[DONE]" "null"] ∧
      IsContentEvent json.Unmarshal (eventLine "[DONE]" "null") (goString "[DONE]") ∧
      handleStreamInput json.Unmarshal
        { StatusCode := 200, Body := oneChunk [eventLine "[DONE]" "null"] } = Except.ok [] ∧
      handleStreamInput json.Unmarshal
        { StatusCode := 200, Body := oneChunk [eventLine "[DONE]" "null"] }
        ≠ Except.ok (goString "[DONE]") :=
  ⟨by decide!, isContentEvent_of_lineContent _ _ _ (by decide!), by decide!, by decide!⟩

theorem loopBody_doneLine (unmarshal : GoString → Except json.Error streamResponse)
    (full : GoString) : loopBody unmarshal full doneLine = Step.done full :=
  loopBody_done unmarshal full doneLine (by decide!) (by decide!) (by decide!)

/-- C2. Termination invariant: for all line sequences `pre` and `post`, the text
returned for a body scanned into `pre ++ [data: [DONE]] ++ post` is the text
returned for a body scanned into `pre` alone (a panic raised inside `pre`
included); the lines of `post` have no effect. (No assumption on `pre` is
needed: if a line of `pre` already ends the loop, both sides stop there.) -/
theorem termination_invariant
    (unmarshal : GoString → Except json.Error streamResponse) (resp1 resp2 : Response)
    (pre post : List GoString)
    (hstatus1 : resp1.StatusCode = StatusOK) (hstatus2 : resp2.StatusCode = StatusOK)
    (hbody1 : bufio.lines resp1.Body = pre ++ doneLine :: post)
    (hbody2 : bufio.lines resp2.Body = pre) :
    handleStreamInput unmarshal resp1 = handleStreamInput unmarshal resp2 := by
  rw [handleStreamInput_eq_consume _ _ hstatus1, handleStreamInput_eq_consume _ _ hstatus2,
    hbody1, hbody2]
  exact consume_done_at unmarshal doneLine (loopBody_doneLine unmarshal) [] pre post

/-- Witness of C2: after `Hello` and the sentinel, a line with an empty choice
list (which panics when it is processed), a malformed line and a further event
follow; the text is that of the body with `Hello` alone. -/
theorem termination_invariant_witness :
    bufio.lines (oneChunk [eventLine "Hello" "null", doneLine,
        goString "data: \x7b\"choices\":[]\x7d", goString "data: \x7b\"cho", eventLine "!" "null"])
        = [eventLine "Hello" "null"] ++ doneLine ::
          [goString "data: \x7b\"choices\":[]\x7d", goString "data: \x7b\"cho", eventLine "!" "null"] ∧
      bufio.lines (oneChunk [eventLine "Hello" "null"]) = [eventLine "Hello" "null"] ∧
      handleStreamInput json.Unmarshal
        { StatusCode := 200,
          Body := oneChunk [eventLine "Hello" "null", doneLine,
            goString "data: \x7b\"choices\":[]\x7d", goString "data: \x7b\"cho",
            eventLine "!" "null"] }
        = handleStreamInput json.Unmarshal
          { StatusCode := 200, Body := oneChunk [eventLine "Hello" "null"] } ∧
      handleStreamInput json.Unmarshal
          { StatusCode := 200, Body := oneChunk [eventLine "Hello" "null"] }
        = Except.ok (goString "Hello") :=
  ⟨by decide!, by decide!,
    termination_invariant json.Unmarshal _ _ [eventLine "Hello" "null"]
      [goString "data: \x7b\"choices\":[]\x7d", goString "data: \x7b\"cho", eventLine "!" "null"]
      rfl rfl (by decide!) (by decide!),
    by decide!⟩

/-- The test the loop makes for the end marker: a data line with a non-empty
trimmed payload reaches the `break` if and only if the line contains the
case-sensitive substring `[DONE]`; it does so when the payload is exactly
`[DONE]`. When it does, a body scanned into `pre`, the line and any further
lines returns what the body scanned into `pre` returns. -/
theorem sentinel_substring_match
    (unmarshal : GoString → Except json.Error streamResponse) (full line : GoString)
    (hdata : strings.HasPrefix line (goString "data:") = true) (hpayload : payload line ≠ []) :
    ((∃ f, loopBody unmarshal full line = Step.done f) ↔
        strings.Contains line (goString "[DONE]") = true) ∧
      (payload line = goString "[DONE]" → loopBody unmarshal full line = Step.done full) ∧
      (strings.Contains line (goString "[DONE]") = true →
        ∀ (resp1 resp2 : Response) (pre post : List GoString),
          resp1.StatusCode = StatusOK → resp2.StatusCode = StatusOK →
          bufio.lines resp1.Body = pre ++ line :: post → bufio.lines resp2.Body = pre →
          handleStreamInput unmarshal resp1 = handleStreamInput unmarshal resp2) := by
  have hdone : ∀ f, strings.Contains line (goString "[DONE]") = true →
      loopBody unmarshal f line = Step.done f :=
    fun f => loopBody_done unmarshal f line hdata hpayload
  refine ⟨⟨?_, fun h => ⟨full, hdone full h⟩⟩,
    fun h => hdone full (contains_of_payload_eq _ _ h), ?_⟩
  · rintro ⟨f, hf⟩
    by_contra hc
    simp only [loopBody, hdata, hpayload, hc] at hf
    revert hf
    simp only [Bool.not_true, Bool.false_eq_true, if_false]
    split
    · simp
    · split
      · simp
      · split <;> simp
  · intro hc resp1 resp2 pre post h1 h2 hb1 hb2
    rw [handleStreamInput_eq_consume _ _ h1, handleStreamInput_eq_consume _ _ h2, hb1, hb2]
    exact consume_done_at unmarshal line (fun f => hdone f hc) [] pre post

/-- C3 (the code at the failing input). The data line
`data: {"choices":[{"index":0,"delta":{"content":"see [DONE] tag"},"finish_reason":null}]}`
has a payload that is not `[DONE]` and that parses as an event with the content
`see [DONE] tag`, yet the loop breaks at it: the stream made of this line and a
second event with content `x` returns the empty text. -/
theorem sentinel_misfires_on_content :
    strings.HasPrefix (eventLine "see [DONE] tag" "null") (goString "data:") = true ∧
      payload (eventLine "see [DONE] tag" "null") ≠ goString "[DONE]" ∧
      lineContent json.Unmarshal (eventLine "see [DONE] tag" "null")
        = some (goString "see [DONE] tag") ∧
      loopBody json.Unmarshal [] (eventLine "see [DONE] tag" "null") = Step.done [] ∧
      bufio.lines (oneChunk [eventLine "see [DONE] tag" "null", eventLine "x" "null"])
        = [eventLine "see [DONE] tag" "null", eventLine "x" "null"] ∧
      handleStreamInput json.Unmarshal
        { StatusCode := 200,
          Body := oneChunk [eventLine "see [DONE] tag" "null", eventLine "x" "null"] }
        = Except.ok [] := by
  refine ⟨?_, ?_, ?_, ?_, ?_, ?_⟩ <;> decide!

/-- C4 (the code at the failing input). The payload `{"choices":[]}` unmarshals
without error into an empty choice list, and `handleStreamInput` on the stream
`Hello`, `data: {"choices":[]}`, ` world` ends in the index-out-of-range panic of
`sr.Choices[0]` instead of skipping the line. -/
theorem empty_choices_panics :
    (json.Unmarshal (payload (goString "data: \x7b\"choices\":[]\x7d"))).toOption.map
        (fun sr => sr.Choices.length) = some 0 ∧
      bufio.lines (oneChunk [eventLine "Hello" "null", goString "data: \x7b\"choices\":[]\x7d",
        eventLine " world" "null"])
        = [eventLine "Hello" "null", goString "data: \x7b\"choices\":[]\x7d",
          eventLine " world" "null"] ∧
      handleStreamInput json.Unmarshal
        { StatusCode := 200,
          Body := oneChunk [eventLine "Hello" "null", goString "data: \x7b\"choices\":[]\x7d",
            eventLine " world" "null"] }
        = Except.error Panic.indexOutOfRange := by
  refine ⟨?_, ?_, ?_⟩ <;> decide!

/-- A malformed line is skipped: for two events with contents `a` and `b` (nil
finish reason) and a data line `m` whose payload fails to unmarshal, none of the
three lines containing the substring `[DONE]`, a body scanned into
`[event a, m, event b]` returns `a ++ b`, as a body scanned into
`[event a, event b]` does. -/
theorem skip_and_continue_without_done
    (unmarshal : GoString → Except json.Error streamResponse) (resp1 resp2 : Response)
    (la a m lb b : GoString) (e : json.Error)
    (hstatus1 : resp1.StatusCode = StatusOK) (hstatus2 : resp2.StatusCode = StatusOK)
    (hbody1 : bufio.lines resp1.Body = [la, m, lb])
    (hbody2 : bufio.lines resp2.Body = [la, lb])
    (ha : IsContentEvent unmarshal la a) (hb : IsContentEvent unmarshal lb b)
    (hm : strings.HasPrefix m (goString "data:") = true)
    (hmalformed : unmarshal (payload m) = Except.error e)
    (hda : strings.Contains la (goString "[DONE]") = false)
    (hdm : strings.Contains m (goString "[DONE]") = false)
    (hdb : strings.Contains lb (goString "[DONE]") = false) :
    handleStreamInput unmarshal resp1 = Except.ok (a ++ b) ∧
      handleStreamInput unmarshal resp2 = Except.ok (a ++ b) := by
  rw [handleStreamInput_eq_consume _ _ hstatus1, handleStreamInput_eq_consume _ _ hstatus2,
    hbody1, hbody2]
  have h1 := loopBody_content unmarshal [] la a ha hda
  have h2 := loopBody_malformed unmarshal ([] ++ a) m e hm hmalformed hdm
  have h3 := loopBody_content unmarshal ([] ++ a) lb b hb hdb
  constructor
  · rw [consume_cons_next _ _ _ _ _ h1, consume_cons_next _ _ _ _ _ h2,
      consume_cons_next _ _ _ _ _ h3]
    simp [consume]
  · rw [consume_cons_next _ _ _ _ _ h1, consume_cons_next _ _ _ _ _ h3]
    simp [consume]

/-- C5 (the code at the failing input). Between the events `a` and `b` stands the
data line `data: {"choices": [DONE]}`, whose payload is not the sentinel and
fails to unmarshal (a syntax error); the loop takes the line for the end marker
and the returned text is `a`, not `ab`, while the body without the malformed
line returns `ab`. -/
theorem malformed_line_with_done_ends_stream :
    IsContentEvent json.Unmarshal (eventLine "a" "null") (goString "a") ∧
      IsContentEvent json.Unmarshal (eventLine "b" "null") (goString "b") ∧
      strings.HasPrefix (goString "data: \x7b\"choices\": [DONE]\x7d") (goString "data:") = true ∧
      payload (goString "data: \x7b\"choices\": [DONE]\x7d") ≠ goString "[DONE]" ∧
      json.Unmarshal (payload (goString "data: \x7b\"choices\": [DONE]\x7d"))
        = Except.error json.Error.SyntaxError ∧
      bufio.lines (oneChunk [eventLine "a" "null", goString "data: \x7b\"choices\": [DONE]\x7d",
        eventLine "b" "null"])
        = [eventLine "a" "null", goString "data: \x7b\"choices\": [DONE]\x7d",
          eventLine "b" "null"] ∧
      handleStreamInput json.Unmarshal
        { StatusCode := 200,
          Body := oneChunk [eventLine "a" "null",
            goString "data: \x7b\"choices\": [DONE]\x7d", eventLine "b" "null"] }
        = Except.ok (goString "a") ∧
      handleStreamInput json.Unmarshal
        { StatusCode := 200, Body := oneChunk [eventLine "a" "null", eventLine "b" "null"] }
        = Except.ok (goString "ab") :=
  ⟨isContentEvent_of_lineContent _ _ _ (by decide!),
    isContentEvent_of_lineContent _ _ _ (by decide!),
    by decide!, by decide!, by rfl, by decide!, by decide!, by decide!⟩

/-- C6. Status gate: for every response whose status code is not 200 and every
body, `handleStreamInput` returns the empty string; it does not panic and no
line of the body contributes. -/
theorem status_gate
    (unmarshal : GoString → Except json.Error streamResponse) (resp : Response)
    (hstatus : resp.StatusCode ≠ StatusOK) :
    handleStreamInput unmarshal resp = Except.ok [] := by
  simp [handleStreamInput, hstatus]

/-- Witness of C6: status 500 with a body holding a well-formed event and a line
with an empty choice list (which would panic under status 200). -/
theorem status_gate_witness :
    handleStreamInput json.Unmarshal
        { StatusCode := 500,
          Body := oneChunk [eventLine "Hello" "null", goString "data: \x7b\"choices\":[]\x7d"] }
        = Except.ok [] ∧
      handleStreamInput json.Unmarshal
        { StatusCode := 200,
          Body := oneChunk [eventLine "Hello" "null", goString "data: \x7b\"choices\":[]\x7d"] }
        = Except.error Panic.indexOutOfRange :=
  ⟨status_gate json.Unmarshal _ (by decide), by decide!⟩

/-- C7. Finish-reason events are pure completion markers: for a data line whose
payload unmarshals with a non-empty choice list and a non-nil finish reason on
the first choice, the loop body leaves `fullResponse` unchanged whatever the
delta content is, and the text returned for a body ending with that line is the
text returned for the body without it. -/
theorem finish_reason_marker
    (unmarshal : GoString → Except json.Error streamResponse) (line : GoString)
    (hfinish : IsFinishEvent unmarshal line) :
    (∀ full, loopBody unmarshal full line = Step.next full ∨
        loopBody unmarshal full line = Step.done full) ∧
      ∀ (resp1 resp2 : Response) (pre : List GoString),
        resp1.StatusCode = StatusOK → resp2.StatusCode = StatusOK →
        bufio.lines resp1.Body = pre ++ [line] → bufio.lines resp2.Body = pre →
        handleStreamInput unmarshal resp1 = handleStreamInput unmarshal resp2 := by
  refine ⟨fun full => loopBody_finish unmarshal full line hfinish, ?_⟩
  intro resp1 resp2 pre h1 h2 hb1 hb2
  rw [handleStreamInput_eq_consume _ _ h1, handleStreamInput_eq_consume _ _ h2, hb1, hb2]
  exact consume_stop_at unmarshal line (fun full => loopBody_finish unmarshal full line hfinish)
    [] pre

/-- Witness of C7: a finish-reason event that carries the content `ignored`
leaves the text `Hello world` of the two events before it unchanged; and the
stream `Hello`, ` world`, an event with finish reason `stop` and empty content,
`[DONE]` returns `Hello world`. -/
theorem finish_reason_marker_witness :
    IsFinishEvent json.Unmarshal (eventLine "ignored" "\"stop\"") ∧
      loopBody json.Unmarshal (goString "Hello world") (eventLine "ignored" "\"stop\"")
        = Step.next (goString "Hello world") ∧
      handleStreamInput json.Unmarshal
        { StatusCode := 200,
          Body := oneChunk [eventLine "Hello" "null", eventLine " world" "null",
            eventLine "ignored" "\"stop\""] }
        = handleStreamInput json.Unmarshal
          { StatusCode := 200,
            Body := oneChunk [eventLine "Hello" "null", eventLine " world" "null"] } ∧
      handleStreamInput json.Unmarshal
        { StatusCode := 200,
          Body := oneChunk [eventLine "Hello" "null", eventLine " world" "null",
            eventLine "" "\"stop\"", doneLine] }
        = Except.ok (goString "Hello world") :=
  have h : IsFinishEvent json.Unmarshal (eventLine "ignored" "\"stop\"") :=
    ⟨by decide!, _, _, _, rfl, rfl, rfl⟩
  ⟨h, by decide!,
    (finish_reason_marker json.Unmarshal _ h).2 _ _
      [eventLine "Hello" "null", eventLine " world" "null"] rfl rfl (by decide!) (by decide!),
    by decide!⟩

/-- C8 (amended). Skip lines are neutral: a line shorter than 65536 bytes
(`bufio.MaxScanTokenSize`, line feed excluded) whose text does not begin with
`data:`, or whose remainder after `data:` is empty or only white space, can be
inserted at any position of the lines of a body without changing what
`handleStreamInput` returns (text or panic), whatever else the line contains
and however long the other lines are. The bodies are delivered by readers that
make no more than `maxConsecutiveEmptyReads` empty reads in a row. -/
theorem skip_lines_neutral_short
    (unmarshal : GoString → Except json.Error streamResponse) (resp1 resp2 : Response)
    (pre post : List (List Byte)) (r : List Byte)
    (hstatus : resp1.StatusCode = resp2.StatusCode)
    (hreads1 : bufio.progresses 0 resp1.Body = true)
    (hreads2 : bufio.progresses 0 resp2.Body = true)
    (hbody1 : bufio.rawLines resp1.Body.flatten [] = pre ++ r :: post)
    (hbody2 : bufio.rawLines resp2.Body.flatten [] = pre ++ post)
    (hshort : r.length < bufio.MaxScanTokenSize)
    (hskip : IsSkipLine (bufio.dropCR r)) :
    handleStreamInput unmarshal resp1 = handleStreamInput unmarshal resp2 := by
  by_cases hok : resp1.StatusCode = StatusOK
  · rw [handleStreamInput_eq_consume _ _ hok, handleStreamInput_eq_consume _ _ (hstatus ▸ hok),
      bufio.lines_eq_rawLines _ hreads1, bufio.lines_eq_rawLines _ hreads2, hbody1, hbody2]
    exact consume_insert_short unmarshal r (by simp [bufio.shortLine, hshort]) hskip [] pre post
  · rw [status_gate_aux _ _ hok, status_gate_aux _ _ (hstatus ▸ hok)]

/-- Witness of C8 (amended): the comment line `: ping [DONE]`, which contains
the text `[DONE]` but does not begin with `data:`, inserted between two events;
the data line `data: ` followed by a tab and a blank is a skip line as well. -/
theorem skip_lines_neutral_short_witness :
    bufio.rawLines (oneChunk [eventLine "Hello" "null", goString ": ping [DONE]",
        eventLine " world" "null"]).flatten []
        = [eventLine "Hello" "null"] ++ goString ": ping [DONE]" :: [eventLine " world" "null"] ∧
      IsSkipLine (bufio.dropCR (goString ": ping [DONE]")) ∧
      IsSkipLine (goString "data: \t ") ∧
      handleStreamInput json.Unmarshal
        { StatusCode := 200,
          Body := oneChunk [eventLine "Hello" "null", goString ": ping [DONE]",
            eventLine " world" "null"] }
        = handleStreamInput json.Unmarshal
          { StatusCode := 200,
            Body := oneChunk [eventLine "Hello" "null", eventLine " world" "null"] } ∧
      handleStreamInput json.Unmarshal
          { StatusCode := 200,
            Body := oneChunk [eventLine "Hello" "null", eventLine " world" "null"] }
        = Except.ok (goString "Hello world") :=
  have h : IsSkipLine (bufio.dropCR (goString ": ping [DONE]")) := Or.inl (by decide!)
  ⟨by decide!, h, Or.inr ⟨[[0x20], [0x09], [0x20]], by decide!, by decide!⟩,
    skip_lines_neutral_short json.Unmarshal _ _ [eventLine "Hello" "null"]
      [eventLine " world" "null"] (goString ": ping [DONE]") rfl (by decide!) (by decide!)
      (by decide!) (by decide!) (by decide!) h,
    by decide!⟩

/-- Counterexample to C8 as stated: a line of 65536 letters `x` does not begin
with `data:`, yet inserting it between the events `Hello` and ` world` changes
the returned text from `Hello world` to `Hello`: the scanner stops at the line
(`bufio.ErrTooLong`) and the event behind it is never read. -/
theorem skip_lines_neutral_counterexample :
    IsSkipLine longLine ∧
      handleStreamInput json.Unmarshal
        { StatusCode := 200,
          Body := oneChunk [eventLine "Hello" "null", longLine, eventLine " world" "null"] }
        = Except.ok (goString "Hello") ∧
      handleStreamInput json.Unmarshal
        { StatusCode := 200,
          Body := oneChunk [eventLine "Hello" "null", eventLine " world" "null"] }
        = Except.ok (goString "Hello world") := by
  refine ⟨longLine_skip, ?_, by decide!⟩
  have hraw : bufio.rawLines
      (oneChunk [eventLine "Hello" "null", longLine, eventLine " world" "null"]).flatten []
      = [eventLine "Hello" "null", longLine, eventLine " world" "null"] := by
    apply rawLines_oneChunk
    intro l hl
    simp only [List.mem_cons, List.mem_singleton, List.not_mem_nil, or_false] at hl
    rcases hl with rfl | rfl | rfl
    · decide!
    · exact longLine_no_lf
    · decide!
  rw [handleStreamInput_eq_consume _ _ rfl, bufio.lines_eq_rawLines _ (progresses_oneChunk _),
    hraw, List.takeWhile_cons_of_pos (by decide!),
    List.takeWhile_cons_of_neg (by simp [longLine_not_short])]
  decide!

/-- C9. Chunk-boundary idempotence: two bodies that deliver the same byte stream
cut into chunks in different ways (neither making more than
`maxConsecutiveEmptyReads` empty reads in a row, as is the case when no chunk is
empty) are scanned into the same lines, and `handleStreamInput` returns the
same result for them; the lines are those of the whole stream, so a line split
across reads is reassembled before it is parsed. -/
theorem chunk_boundary_idempotence
    (unmarshal : GoString → Except json.Error streamResponse) (status : Int)
    (body1 body2 : bufio.Reader)
    (hchunks1 : bufio.progresses 0 body1 = true) (hchunks2 : bufio.progresses 0 body2 = true)
    (hstream : body1.flatten = body2.flatten) :
    bufio.lines body1 = bufio.streamLines (body1.flatten.length + 1) body1.flatten ∧
      bufio.lines body1 = bufio.lines body2 ∧
      handleStreamInput unmarshal { StatusCode := status, Body := body1 }
        = handleStreamInput unmarshal { StatusCode := status, Body := body2 } := by
  have hl : bufio.lines body1 = bufio.lines body2 := by
    rw [bufio.lines_eq_streamLines body1 hchunks1, bufio.lines_eq_streamLines body2 hchunks2,
      hstream]
  refine ⟨bufio.lines_eq_streamLines body1 hchunks1, hl, ?_⟩
  by_cases hs : status = StatusOK
  · rw [handleStreamInput_eq_consume _ _ hs, handleStreamInput_eq_consume _ _ hs]
    exact congrArg _ hl
  · rw [status_gate_aux _ _ hs, status_gate_aux _ _ hs]

/-- Witness of C9: the stream `Hello`, ` world`, `[DONE]` delivered in one chunk
and delivered in chunks that cut the first line inside its JSON text, the second
inside the prefix `data:` and separate a line from its line feed, with an empty
read in between. -/
theorem chunk_boundary_idempotence_witness :
    [eventLine "Hello" "null" ++ [10] ++ eventLine " world" "null" ++ [10] ++ doneLine ++ [10]]
        = oneChunk [eventLine "Hello" "null", eventLine " world" "null", doneLine] ∧
      bufio.lines [(eventLine "Hello" "null").take 30,
          (eventLine "Hello" "null").drop 30 ++ [10] ++ (eventLine " world" "null").take 3, [],
          (eventLine " world" "null").drop 3, [10] ++ doneLine ++ [10]]
        = [eventLine "Hello" "null", eventLine " world" "null", doneLine] ∧
      handleStreamInput json.Unmarshal
        { StatusCode := 200,
          Body := [(eventLine "Hello" "null").take 30,
            (eventLine "Hello" "null").drop 30 ++ [10] ++ (eventLine " world" "null").take 3, [],
            (eventLine " world" "null").drop 3, [10] ++ doneLine ++ [10]] }
        = handleStreamInput json.Unmarshal
          { StatusCode := 200,
            Body := oneChunk [eventLine "Hello" "null", eventLine " world" "null", doneLine] } ∧
      handleStreamInput json.Unmarshal
          { StatusCode := 200,
            Body := oneChunk [eventLine "Hello" "null", eventLine " world" "null", doneLine] }
        = Except.ok (goString "Hello world") :=
  ⟨by decide!, by decide!,
    (chunk_boundary_idempotence json.Unmarshal 200 _ _ (by decide!) (by decide!)
      (by decide!)).2.2,
    by decide!⟩

/-- C10 (amended). Reference characterisation: for a status-200 body all of
whose lines are shorter than 65536 bytes (`bufio.MaxScanTokenSize`, line feed
excluded), none of whose lines contains the substring `[DONE]` and in which
every data payload that unmarshals has a non-empty choice list, the returned
text is the in-order concatenation of `choices[0].delta.content` over exactly
the lines that start with `data:`, have a non-empty trimmed payload, unmarshal,
and have a nil `choices[0].finish_reason`. The body is delivered by a reader
that makes no more than `maxConsecutiveEmptyReads` empty reads in a row. -/
theorem reference_characterisation_short
    (unmarshal : GoString → Except json.Error streamResponse) (resp : Response)
    (hstatus : resp.StatusCode = StatusOK)
    (hreads : bufio.progresses 0 resp.Body = true)
    (hshort : ∀ r ∈ bufio.rawLines resp.Body.flatten [], r.length < bufio.MaxScanTokenSize)
    (hdone : ∀ l ∈ bodyLines resp.Body, strings.Contains l (goString "[DONE]") = false)
    (hchoices : ∀ l ∈ bodyLines resp.Body, ∀ sr,
      strings.HasPrefix l (goString "data:") = true →
      unmarshal (payload l) = Except.ok sr → sr.Choices ≠ []) :
    handleStreamInput unmarshal resp
      = Except.ok (referenceText unmarshal (bodyLines resp.Body)) := by
  rw [handleStreamInput_eq_consume _ _ hstatus, bufio.lines_eq_bodyLines _ hreads hshort,
    consume_reference unmarshal _ hdone hchoices []]
  simp

/-- Witness of C10 (amended): a body with the event `Hel`, a comment line, a
data line of blanks, a truncated JSON payload, an event with the two choices
`lo` and `XX`, a finish-reason event with content `YY` and the event `!`
returns `Hello!`, the reference text of its lines. -/
theorem reference_characterisation_short_witness :
    bodyLines (oneChunk [eventLine "Hel" "null", goString ": comment", goString "data:   ",
        goString "data: \x7b\"cho",
        goString ("data: \x7b\"choices\":[\x7b\"delta\":\x7b\"content\":\"lo\"\x7d\x7d," ++
          "\x7b\"delta\":\x7b\"content\":\"XX\"\x7d\x7d]\x7d"),
        eventLine "YY" "\"stop\"", eventLine "!" "null"])
        = [eventLine "Hel" "null", goString ": comment", goString "data:   ",
          goString "data: \x7b\"cho",
          goString ("data: \x7b\"choices\":[\x7b\"delta\":\x7b\"content\":\"lo\"\x7d\x7d," ++
            "\x7b\"delta\":\x7b\"content\":\"XX\"\x7d\x7d]\x7d"),
          eventLine "YY" "\"stop\"", eventLine "!" "null"] ∧
      handleStreamInput json.Unmarshal
        { StatusCode := 200,
          Body := oneChunk [eventLine "Hel" "null", goString ": comment", goString "data:   ",
            goString "data: \x7b\"cho",
            goString ("data: \x7b\"choices\":[\x7b\"delta\":\x7b\"content\":\"lo\"\x7d\x7d," ++
              "\x7b\"delta\":\x7b\"content\":\"XX\"\x7d\x7d]\x7d"),
            eventLine "YY" "\"stop\"", eventLine "!" "null"] }
        = Except.ok (goString "Hello!") :=
  ⟨by decide!,
    (reference_characterisation_short json.Unmarshal
      { StatusCode := 200,
        Body := oneChunk [eventLine "Hel" "null", goString ": comment", goString "data:   ",
          goString "data: \x7b\"cho",
          goString ("data: \x7b\"choices\":[\x7b\"delta\":\x7b\"content\":\"lo\"\x7d\x7d," ++
            "\x7b\"delta\":\x7b\"content\":\"XX\"\x7d\x7d]\x7d"),
          eventLine "YY" "\"stop\"", eventLine "!" "null"] }
      rfl (by decide!) (by decide!) (by decide!)
      (choices_ne_nil_of _ _ (by decide!))).trans (by decide!)⟩

/-- Counterexample to C10 as stated: the body made of a line of 65536 letters
`x` and the event `a`. No line contains `[DONE]`, the one payload that
unmarshals has a choice, and the reference text of the lines is `a`; the
returned text is empty, because the scanner stops at the first line
(`bufio.ErrTooLong`). -/
theorem reference_characterisation_counterexample :
    bodyLines (oneChunk [longLine, eventLine "a" "null"]) = [longLine, eventLine "a" "null"] ∧
      (∀ l ∈ bodyLines (oneChunk [longLine, eventLine "a" "null"]),
        strings.Contains l (goString "[DONE]") = false) ∧
      (∀ l ∈ bodyLines (oneChunk [longLine, eventLine "a" "null"]), ∀ sr,
        strings.HasPrefix l (goString "data:") = true →
        json.Unmarshal (payload l) = Except.ok sr → sr.Choices ≠ []) ∧
      referenceText json.Unmarshal (bodyLines (oneChunk [longLine, eventLine "a" "null"]))
        = goString "a" ∧
      handleStreamInput json.Unmarshal
        { StatusCode := 200, Body := oneChunk [longLine, eventLine "a" "null"] }
        = Except.ok [] := by
  have hraw : bufio.rawLines (oneChunk [longLine, eventLine "a" "null"]).flatten []
      = [longLine, eventLine "a" "null"] := by
    apply rawLines_oneChunk
    intro l hl
    simp only [List.mem_cons, List.mem_singleton, List.not_mem_nil, or_false] at hl
    rcases hl with rfl | rfl
    · exact longLine_no_lf
    · decide!
  have hlines : bodyLines (oneChunk [longLine, eventLine "a" "null"])
      = [longLine, eventLine "a" "null"] := by
    have h1 : bufio.dropCR longLine = longLine := dropCR_replicate _ _ (by decide)
    have h2 : bufio.dropCR (eventLine "a" "null") = eventLine "a" "null" := by decide!
    rw [bodyLines, hraw, List.map_cons, List.map_cons, List.map_nil, h1, h2]
  have hnodata : strings.HasPrefix longLine (goString "data:") = false := by
    rw [goString_data]; exact HasPrefix_replicate _ _ _ _ (by decide)
  have hlong : lineContent json.Unmarshal longLine = none := by
    simp [lineContent, hnodata]
  have hev : lineContent json.Unmarshal (eventLine "a" "null") = some (goString "a") := by
    decide!
  refine ⟨hlines, ?_, ?_, ?_, ?_⟩
  · rw [hlines]
    intro l hl
    simp only [List.mem_cons, List.mem_singleton, List.not_mem_nil, or_false] at hl
    rcases hl with rfl | rfl
    · rw [goString_done]; exact Contains_replicate _ _ _ _ (by decide)
    · decide!
  · rw [hlines]
    intro l hl sr hp hu
    simp only [List.mem_cons, List.mem_singleton, List.not_mem_nil, or_false] at hl
    rcases hl with rfl | rfl
    · rw [hnodata] at hp; exact absurd hp (by decide)
    · exact choices_ne_nil_of json.Unmarshal [eventLine "a" "null"] (by decide!) _
        (by simp) sr hp hu
  · rw [hlines]
    simp [referenceText, hlong, hev]
  · rw [handleStreamInput_eq_consume _ _ rfl, bufio.lines_eq_rawLines _ (progresses_oneChunk _),
      hraw, List.takeWhile_cons_of_neg (by simp [longLine_not_short])]
    rfl
